import Mathlib

/-!
Verification of the text extraction / rehydration / batch-translation core of
the EXCEL-Translator-Pro repository.

Strings are modelled as `List Char` (one entry per Unicode scalar; all the
patterns the code scans for are ASCII, so JavaScript's UTF-16 view and the
scalar view agree on every match considered here).  The regex-based scanning
functions of `src/services/excelService.ts` are embedded as left-to-right
scanners: a JavaScript global `replace`/`exec` loop attempts the pattern at
each position, emits the single-character at a failed position, and continues
after the end of a successful match.  Scanners whose recursion is not
structural take an explicit fuel argument equal to the length of the input;
each step consumes at least one character, so the fuel never runs out (the
wrapper definitions fix the fuel to the input length, and unfolding equations
are proved below).
-/

namespace XlT

/-- Character-list model of a JavaScript string. -/
abbrev Str := List Char

/-- Literal helper: the character list of a Lean string literal. -/
def str (s : String) : Str := s.data

/-- Lookup in an association list, modelling `Map.get` / `Map.has` of the
JavaScript `translationMap` (first matching key wins; keys are unique). -/
def lookupA (m : List (Str × Str)) (k : Str) : Option Str :=
  match m with
  | [] => none
  | (k', v) :: t => if k = k' then some v else lookupA t k

/-- `Map.set`: update the value in place if the key is present, else append
(JavaScript `Map` keeps the first-insertion position of a key). -/
def setAssoc (m : List (Str × Str)) (k v : Str) : List (Str × Str) :=
  match m with
  | [] => [(k, v)]
  | (k', v') :: t => if k = k' then (k, v) :: t else (k', v') :: setAssoc t k v

/-- Substring test, modelling `String.prototype.includes` (and a regex scan
for a literal pattern): the pattern occurs at some position. -/
def containsSub (p : Str) (s : Str) : Bool :=
  p.isPrefixOf s ||
    match s with
    | [] => false
    | _ :: t => containsSub p t

/-- Strip a literal pattern from the front of a string, if present. -/
def stripPre : Str → Str → Option Str
  | [], s => some s
  | _, [] => none
  | p :: ps, c :: t => if c = p then stripPre ps t else none

/-- Split a string at the first occurrence of a literal pattern:
`splitAtSub p s = some (a, b)` iff `s = a ++ p ++ b` with `p` not occurring
earlier.  This is the lazy-quantifier search `([\s\S]*?)p` of the scanners. -/
def splitAtSub (p : Str) (s : Str) : Option (Str × Str) :=
  if p.isPrefixOf s then some ([], s.drop p.length)
  else
    match s with
    | [] => none
    | c :: t => (splitAtSub p t).map (fun ab => (c :: ab.1, ab.2))

/-- Per-character escaping table of `escapeXml` (excelService.ts lines
312-323): the five XML metacharacters become entities. -/
def escChar (c : Char) : Str :=
  if c = '<' then str "&lt;"
  else if c = '>' then str "&gt;"
  else if c = '&' then str "&amp;"
  else if c = '\'' then str "&apos;"
  else if c = '"' then str "&quot;"
  else [c]

/-- Concat-map of a character-to-string table over a string (the semantics of
a character-class global replace such as `unsafe.replace(/[<>&'"]/g, ...)`). -/
def emap (f : Char → Str) : Str → Str
  | [] => []
  | c :: t => f c ++ emap f t

/-- `escapeXml` (excelService.ts lines 312-323). -/
def escapeXml (s : Str) : Str := emap escChar s

/-- Fueled global replace of one literal pattern by a literal replacement:
the semantics of `s.replace(/pat/g, rep)` for a literal `pat`.  Scans left to
right; after a replacement, continues after the matched occurrence (replaced
text is not rescanned). -/
def replaceAllF (pat rep : Str) : Nat → Str → Str
  | 0, s => s
  | _ + 1, [] => []
  | f + 1, c :: t =>
    if pat.isPrefixOf (c :: t) then rep ++ replaceAllF pat rep f (t.drop (pat.length - 1))
    else c :: replaceAllF pat rep f t

/-- Global literal replace, `s.replace(/pat/g, rep)`. -/
def replaceAll (pat rep : Str) (s : Str) : Str := replaceAllF pat rep s.length s

/-- `decodeXml` (excelService.ts lines 325-332): the five entity replacements
applied in sequence (`&lt;`, `&gt;`, `&amp;`, `&apos;`, `&quot;`). -/
def decodeXml (s : Str) : Str :=
  replaceAll (str "&quot;") (str "\"")
    (replaceAll (str "&apos;") (str "'")
      (replaceAll (str "&amp;") (str "&")
        (replaceAll (str "&gt;") (str ">")
          (replaceAll (str "&lt;") (str "<") s))))

/-- Membership of a character in the Japanese script ranges of the
`hasJapanese` regex (excelService.ts lines 6-8). -/
def isJapaneseChar (c : Char) : Bool :=
  (0x3000 ≤ c.toNat && c.toNat ≤ 0x303f) ||
  (0x3040 ≤ c.toNat && c.toNat ≤ 0x309f) ||
  (0x30a0 ≤ c.toNat && c.toNat ≤ 0x30ff) ||
  (0xff00 ≤ c.toNat && c.toNat ≤ 0xff9f) ||
  (0x4e00 ≤ c.toNat && c.toNat ≤ 0x9faf) ||
  (0x3400 ≤ c.toNat && c.toNat ≤ 0x4dbf)

/-- `hasJapanese` (excelService.ts lines 6-8). -/
def hasJapanese (s : Str) : Bool := s.any isJapaneseChar

/-- JavaScript `\s` character class (whitespace), as used in the tag regexes
`<tag(?:\s[^>]*)?>` and `<sheet\s+[^>]*>`. -/
def isJsSpace (c : Char) : Bool :=
  c = '\t' || c = '\n' || c = '\x0b' || c = '\x0c' || c = '\r' || c = ' ' ||
  c.toNat = 0xa0 || c.toNat = 0x1680 ||
  (0x2000 ≤ c.toNat && c.toNat ≤ 0x200a) ||
  c.toNat = 0x2028 || c.toNat = 0x2029 || c.toNat = 0x202f ||
  c.toNat = 0x205f || c.toNat = 0x3000 || c.toNat = 0xfeff

/-- Attempt of the opening-tag pattern `<tag(?:\s[^>]*)?>` at the start of
`s`.  On success returns the matched open-tag text and the remainder.  The
optional group is deterministic: after `<tag`, either `>` follows directly,
or a whitespace character followed by everything up to the first `>` (if no
`>` follows, the whole attempt fails, matching regex backtracking). -/
def tryOpenTag (tag : Str) (s : Str) : Option (Str × Str) :=
  match stripPre ('<' :: tag) s with
  | none => none
  | some r =>
    match r with
    | [] => none
    | c :: r' =>
      if c = '>' then some ('<' :: (tag ++ ['>']), r')
      else if isJsSpace c then
        match r'.dropWhile (fun d => !(d = '>')) with
        | [] => none
        | _ :: rest =>
          some ('<' :: tag ++ c :: r'.takeWhile (fun d => !(d = '>')) ++ ['>'], rest)
      else none

/-- Closing-tag literal `</tag>`. -/
def closeTag (tag : Str) : Str := '<' :: '/' :: (tag ++ ['>'])

/-- Full attempt of `<tag(?:\s[^>]*)?>([\s\S]*?)</tag>` at the start of `s`:
open tag, then the shortest inner content followed by the closing tag.
Returns (open-tag text, inner content, remainder after the closing tag). -/
def tagFind (tag : Str) (s : Str) : Option (Str × Str × Str) :=
  match tryOpenTag tag s with
  | some (op, rest) =>
    (splitAtSub (closeTag tag) rest).map (fun ir => (op, ir.1, ir.2))
  | none => none

/-- Generic fueled left-to-right scanner: the semantics of a JavaScript
global-regex loop.  At each position, `step` attempts the pattern on the
remaining input; on a match it contributes `out` and the scan continues after
the match, otherwise the single character contributes `plain c` and the scan
advances one position.  Every instance's `step` consumes at least one
character, so with fuel = input length the fuel never runs out. -/
def gscanF (step : Str → Option (List β × Str)) (plain : Char → List β) :
    Nat → Str → List β
  | 0, s => (s.map plain).flatten
  | _ + 1, [] => []
  | f + 1, c :: t =>
    match step (c :: t) with
    | some (out, rest) => out ++ gscanF step plain f rest
    | none => plain c ++ gscanF step plain f t

/-- Wrapper fixing the fuel to the input length. -/
def gscan (step : Str → Option (List β × Str)) (plain : Char → List β)
    (s : Str) : List β :=
  gscanF step plain s.length s

/-- The per-span rewrite of `replaceTagContent` (excelService.ts lines
286-296): decode the inner content, look it up in the map; on a hit the new
inner content is the escaped translation, on a miss the span is unchanged. -/
def rwInner (m : List (Str × Str)) (inner : Str) : Str :=
  match lookupA m (decodeXml inner) with
  | some v => escapeXml v
  | none => inner

/-- `replaceTagContent` (excelService.ts lines 286-296): global rewrite of
every `<tag...>inner</tag>` span. -/
def replaceTagContent (tag : Str) (m : List (Str × Str)) : Str → Str :=
  gscan
    (fun s => (tagFind tag s).map
      (fun x => (x.1 ++ rwInner m x.2.1 ++ closeTag tag, x.2.2)))
    (fun c => [c])

/-- Segment of the tag scan: an unmatched character, or a matched span with
its open-tag text and inner content. -/
inductive Seg
  | plain (c : Char)
  | span (op inner : Str)
  deriving DecidableEq

/-- Scan of a part into segments by the `<tag...>inner</tag>` pattern: the
decomposition underlying both `extractFromTag` and `replaceTagContent`. -/
def scanTagSegs (tag : Str) : Str → List Seg :=
  gscan
    (fun s => (tagFind tag s).map (fun x => ([Seg.span x.1 x.2.1], x.2.2)))
    (fun c => [Seg.plain c])

/-- Output text of one segment under `replaceTagContent`'s rewrite. -/
def renderSeg (tag : Str) (m : List (Str × Str)) : Seg → Str
  | Seg.plain c => [c]
  | Seg.span op inner => op ++ rwInner m inner ++ closeTag tag

/-- Inner contents of the matched spans of a part, in scan order. -/
def tagSpans (tag : Str) (s : Str) : List Str :=
  (scanTagSegs tag s).filterMap
    (fun seg => match seg with | Seg.span _ i => some i | _ => none)

/-- Admission of one tag-span candidate (excelService.ts lines 116-120):
decode, then require nonempty text containing a Japanese-script character. -/
def admitTag (inner : Str) : List Str :=
  let d := decodeXml inner
  if !d.isEmpty && hasJapanese d then [d] else []

/-- `extractFromTag` (excelService.ts lines 109-122): the admitted decoded
inner contents of the `<tag...>...</tag>` spans, in scan order. -/
def extractFromTag (tag : Str) : Str → List Str :=
  gscan
    (fun s => (tagFind tag s).map (fun x => (admitTag x.2.1, x.2.2)))
    (fun _ => [])

/-- `innerContent.replace(/<rPh>[\s\S]*?<\/rPh>/g, '')` (excelService.ts
line 91 and line 268): remove every literal `<rPh>...</rPh>` block. -/
def stripRPh : Str → Str :=
  gscan
    (fun s =>
      if (str "<rPh>").isPrefixOf s then
        (splitAtSub (str "</rPh>") (s.drop 5)).map (fun ir => ([], ir.2))
      else none)
    (fun c => [c])

/-- The `<t ...>` text-run collection loop (excelService.ts lines 95-99 and
270-274): concatenate the inner contents of all `<t...>...</t>` runs. -/
def collectT : Str → Str :=
  gscan
    (fun s => (tagFind (str "t") s).map (fun x => (x.2.1, x.2.2)))
    (fun _ => [])

/-- Decoded candidate text of one `<si>` block's inner content: strip the
`<rPh>` blocks, collect the text runs, decode (excelService.ts lines 89-101
and 268-276). -/
def siCandidate (inner : Str) : Str := decodeXml (collectT (stripRPh inner))

/-- Per-block rewrite of `replaceSharedStrings` (excelService.ts lines
266-284): on a map hit the whole block content is replaced by one normalized
text run holding the escaped translation; on a miss the block is unchanged. -/
def rwSiInner (m : List (Str × Str)) (inner : Str) : Str :=
  match lookupA m (siCandidate inner) with
  | some v => str "<t>" ++ escapeXml v ++ str "</t>"
  | none => inner

/-- Attempt of the `<si>([\s\S]*?)</si>` pattern at the start of `s`. -/
def siFind (s : Str) : Option (Str × Str) :=
  if (str "<si>").isPrefixOf s then splitAtSub (str "</si>") (s.drop 4)
  else none

/-- `replaceSharedStrings` (excelService.ts lines 266-284). -/
def replaceSharedStrings (m : List (Str × Str)) : Str → Str :=
  gscan
    (fun s => (siFind s).map
      (fun ir => (str "<si>" ++ rwSiInner m ir.1 ++ str "</si>", ir.2)))
    (fun c => [c])

/-- Segment of the shared-string scan. -/
inductive SiSeg
  | plain (c : Char)
  | block (inner : Str)
  deriving DecidableEq

/-- Scan of the shared-string part into `<si>` blocks and plain text. -/
def scanSiSegs : Str → List SiSeg :=
  gscan
    (fun s => (siFind s).map (fun ir => ([SiSeg.block ir.1], ir.2)))
    (fun c => [SiSeg.plain c])

/-- Output text of one shared-string segment. -/
def renderSiSeg (m : List (Str × Str)) : SiSeg → Str
  | SiSeg.plain c => [c]
  | SiSeg.block inner => str "<si>" ++ rwSiInner m inner ++ str "</si>"

/-- Inner contents of the `<si>` blocks, in scan order. -/
def siSpans (s : Str) : List Str :=
  (scanSiSegs s).filterMap
    (fun seg => match seg with | SiSeg.block i => some i | _ => none)

/-- Admission of one shared-string candidate (excelService.ts lines
101-104). -/
def admitSi (inner : Str) : List Str :=
  let d := siCandidate inner
  if !d.isEmpty && hasJapanese d then [d] else []

/-- `extractFromSharedStrings` (excelService.ts lines 84-106). -/
def extractFromSharedStrings : Str → List Str :=
  gscan
    (fun s => (siFind s).map (fun ir => (admitSi ir.1, ir.2)))
    (fun _ => [])

/-- First match of `name="([^"]+)"` in a string (excelService.ts line 131 and
line 300): returns (text before the match, attribute value, text after the
closing quote).  The value must be nonempty; on failure at one position the
search continues at the next. -/
def findNameAttr : Str → Option (Str × Str × Str)
  | [] => none
  | c :: t =>
    if (str "name=\"").isPrefixOf (c :: t) then
      match (t.drop 5).takeWhile (fun d => !(d = '"')),
            (t.drop 5).dropWhile (fun d => !(d = '"')) with
      | v :: vs, _ :: rest => some ([], v :: vs, rest)
      | _, _ => (findNameAttr t).map (fun x => (c :: x.1, x.2.1, x.2.2))
    else (findNameAttr t).map (fun x => (c :: x.1, x.2.1, x.2.2))

/-- Characters forbidden in sheet names, the class `[\\/?*[\]:]`
(excelService.ts line 304). -/
def forbiddenChar (c : Char) : Bool :=
  c = '\\' || c = '/' || c = '?' || c = '*' || c = '[' || c = ']' || c = ':'

/-- Sheet-name sanitization (excelService.ts line 304): forbidden characters
replaced by `_`, then truncation to 31 characters. -/
def sanitizeSheetName (s : Str) : Str :=
  (s.map (fun c => if forbiddenChar c then '_' else c)).take 31

/-- Per-tag rewrite of `replaceSheetNames` (excelService.ts lines 299-309):
inside one matched `<sheet ...>` tag, rewrite the first `name="..."`
attribute whose decoded value is in the map with the escaped sanitized
translation; otherwise leave the tag unchanged. -/
def rwSheetTag (m : List (Str × Str)) (tagTxt : Str) : Str :=
  match findNameAttr tagTxt with
  | some x =>
    match lookupA m (decodeXml x.2.1) with
    | some tr =>
      x.1 ++ str "name=\"" ++ escapeXml (sanitizeSheetName tr) ++ '"' :: x.2.2
    | none => tagTxt
  | none => tagTxt

/-- `replaceSheetNames` (excelService.ts lines 298-310): global rewrite of
every `<sheet\s+[^>]*>` tag. -/
def replaceSheetNames (m : List (Str × Str)) : Str → Str :=
  gscan
    (fun s => (tryOpenTag (str "sheet") s).map
      (fun x => (rwSheetTag m x.1, x.2)))
    (fun c => [c])

/-- Segment of the workbook scan. -/
inductive SheetSeg
  | plain (c : Char)
  | tag (txt : Str)
  deriving DecidableEq

/-- Scan of the workbook part into `<sheet ...>` tags and plain text. -/
def scanSheetSegs : Str → List SheetSeg :=
  gscan
    (fun s => (tryOpenTag (str "sheet") s).map
      (fun x => ([SheetSeg.tag x.1], x.2)))
    (fun c => [SheetSeg.plain c])

/-- Output text of one workbook segment. -/
def renderSheetSeg (m : List (Str × Str)) : SheetSeg → Str
  | SheetSeg.plain c => [c]
  | SheetSeg.tag txt => rwSheetTag m txt

/-- The matched `<sheet ...>` tag texts, in scan order. -/
def sheetTags (s : Str) : List Str :=
  (scanSheetSegs s).filterMap
    (fun seg => match seg with | SheetSeg.tag t => some t | _ => none)

/-- Admission of one sheet-name candidate (excelService.ts lines 129-137):
the decoded `name` attribute value, if it contains Japanese text. -/
def admitSheetName (tagTxt : Str) : List Str :=
  match findNameAttr tagTxt with
  | some x =>
    let d := decodeXml x.2.1
    if hasJapanese d then [d] else []
  | none => []

/-- `extractFromSheetNames` (excelService.ts lines 125-139). -/
def extractFromSheetNames : Str → List Str :=
  gscan
    (fun s => (tryOpenTag (str "sheet") s).map
      (fun x => (admitSheetName x.1, x.2)))
    (fun _ => [])

/-- Occurrence of `p2` in `s` with no newline in between, the continuation of
an unanchored `p1.*p2` JavaScript regex after `p1` has matched (`.` does not
match a newline). -/
def seqNoNl (p2 : Str) : Str → Bool
  | [] => p2.isPrefixOf []
  | c :: t => p2.isPrefixOf (c :: t) || (!(c = '\n') && seqNoNl p2 t)

/-- Unanchored match of the pattern `p1.*p2` against a name, the semantics of
`path.match(/p1.*p2/)` truthiness for literal `p1`, `p2`. -/
def matchesPat (p1 p2 : Str) : Str → Bool
  | [] =>
    match stripPre p1 [] with
    | some r => seqNoNl p2 r
    | none => false
  | c :: t =>
    (match stripPre p1 (c :: t) with
     | some r => seqNoNl p2 r
     | none => false) || matchesPat p1 p2 t

/-- Part-name pattern of rule 2, `xl\/worksheets\/sheet.*\.xml`. -/
def isWorksheetName (n : Str) : Bool :=
  matchesPat (str "xl/worksheets/sheet") (str ".xml") n

/-- Part-name pattern of rule 3, `xl\/drawings\/drawing.*\.xml`. -/
def isDrawingName (n : Str) : Bool :=
  matchesPat (str "xl/drawings/drawing") (str ".xml") n

/-- Part-name pattern of rule 4, `xl\/charts\/chart.*\.xml`. -/
def isChartName (n : Str) : Bool :=
  matchesPat (str "xl/charts/chart") (str ".xml") n

/-- Whether a part name is matched by any of the five recognized name
patterns of `getDownloadBuffer` (and of `extractStrings`). -/
def matchesAnyRule (n : Str) : Bool :=
  n = str "xl/sharedStrings.xml" || isWorksheetName n || isDrawingName n ||
  isChartName n || n = str "xl/workbook.xml"

/-- Rewrite of one package part by `getDownloadBuffer` (excelService.ts lines
188-262): the processor selected by the part's name is applied to its
content; a part matching no pattern is untouched.  In the source the five
processors run as concurrently dispatched promises over disjoint name
patterns; a contrived name containing several pattern substrings would be
rewritten by each matching processor in a racy order, while this model
applies the first matching rule — the claims below quantify over single
rules or over parts matching no rule, where the two coincide. -/
def processPart (m : List (Str × Str)) (name content : Str) : Str :=
  if name = str "xl/sharedStrings.xml" then replaceSharedStrings m content
  else if isWorksheetName name then replaceTagContent (str "t") m content
  else if isDrawingName name then replaceTagContent (str "a:t") m content
  else if isChartName name then replaceTagContent (str "a:t") m content
  else if name = str "xl/workbook.xml" then replaceSheetNames m content
  else content

/-- `getDownloadBuffer` (excelService.ts lines 188-262), at the level of the
package's part map: every part keeps its name; contents are rewritten by
`processPart`.  (Serialization of the archive to bytes is outside the
model.) -/
def getDownloadBuffer (m : List (Str × Str)) (parts : List (Str × Str)) :
    List (Str × Str) :=
  parts.map (fun p => (p.1, processPart m p.1 p.2))

/-- `Set.add` on the insertion-ordered unique-string list. -/
def addUnique (l : List Str) (s : Str) : List Str :=
  if s ∈ l then l else l ++ [s]

/-- `extractStrings` (excelService.ts lines 26-81): the five extraction rules
applied over the package, every candidate inserted into the unique-string
set.  Parts are processed in the order the source dispatches them
(shared-string table, worksheets, drawings, charts, workbook). -/
def extractStrings (parts : List (Str × Str)) : List Str :=
  let l1 :=
    match lookupA parts (str "xl/sharedStrings.xml") with
    | some xml => extractFromSharedStrings xml
    | none => []
  let l2 := (parts.map (fun p =>
    if isWorksheetName p.1 then extractFromTag (str "t") p.2 else [])).flatten
  let l3 := (parts.map (fun p =>
    if isDrawingName p.1 then extractFromTag (str "a:t") p.2 else [])).flatten
  let l4 := (parts.map (fun p =>
    if isChartName p.1 then extractFromTag (str "a:t") p.2 else [])).flatten
  let l5 :=
    match lookupA parts (str "xl/workbook.xml") with
    | some xml => extractFromSheetNames xml
    | none => []
  (l1 ++ l2 ++ l3 ++ l4 ++ l5).foldl addUnique []

/-- The candidates of the five rules before the script filter: the same
scans with every decoded candidate kept. -/
def allCandidates (parts : List (Str × Str)) : List Str :=
  let l1 :=
    match lookupA parts (str "xl/sharedStrings.xml") with
    | some xml => (siSpans xml).map siCandidate
    | none => []
  let l2 := (parts.map (fun p =>
    if isWorksheetName p.1 then (tagSpans (str "t") p.2).map decodeXml
    else [])).flatten
  let l3 := (parts.map (fun p =>
    if isDrawingName p.1 then (tagSpans (str "a:t") p.2).map decodeXml
    else [])).flatten
  let l4 := (parts.map (fun p =>
    if isChartName p.1 then (tagSpans (str "a:t") p.2).map decodeXml
    else [])).flatten
  let l5 :=
    match lookupA parts (str "xl/workbook.xml") with
    | some xml =>
      (sheetTags xml).filterMap (fun t =>
        (findNameAttr t).map (fun x => decodeXml x.2.1))
    | none => []
  l1 ++ l2 ++ l3 ++ l4 ++ l5

/-- Error classification surfaced by the translation collaborator
(geminiService.ts lines 81-125): quota exhaustion is non-retryable; a rate
limit that survives the retry budget, and anything else, are terminal. -/
inductive SvcErr
  | quota
  | rateLimit
  | other
  deriving DecidableEq

/-- Progress status (types.ts). -/
inductive PStatus
  | idle
  | parsing
  | translating
  | rebuilding
  | complete
  | error
  deriving DecidableEq

/-- One `TranslationProgress` snapshot (types.ts). -/
structure Progress where
  status : PStatus
  currentChunk : Nat
  totalChunks : Nat
  message : Option Str
  deriving DecidableEq

/-- `Math.ceil(n / b)` for natural `n` and positive `b`. -/
def divCeil (n b : Nat) : Nat := (n + b - 1) / b

/-- `allStrings.slice(i * 20, i * 20 + 20)` — the i-th batch
(excelService.ts lines 154-156, `BATCH_SIZE = 20`). -/
def chunkAt (strings : List Str) (i : Nat) : List Str :=
  (strings.drop (20 * i)).take 20

/-- The progress message `Translating batch ${i+1} of ${total}...`. -/
def transMsg (i total : Nat) : Str :=
  str "Translating batch " ++ (Nat.repr (i + 1)).data ++ str " of " ++
    (Nat.repr total).data ++ str "..."

/-- Per-batch insertion into the translation map (excelService.ts lines
167-169): `chunk.forEach((original, index) =>
map.set(original, translatedChunk[index]))`.  Exact when the collaborator
returns as many strings as it was given (its contract); a shorter reply
would store the JavaScript `undefined`, which has no counterpart here. -/
def insertBatch (m : List (Str × Str)) (chunk outs : List Str) :
    List (Str × Str) :=
  (chunk.zip outs).foldl (fun acc kv => setAssoc acc kv.1 kv.2) m

/-- Outcome of one orchestration run. -/
structure OrchOut where
  tmap : List (Str × Str)
  events : List Progress
  attempted : List (List Str)
  err : Option SvcErr
  deriving DecidableEq

/-- The batch loop of `processTranslations` (excelService.ts lines 153-181):
for each batch index, emit a progress event, call the collaborator; on
success commit the batch positionally and continue, on failure rethrow
immediately (no later batch is attempted).  The fixed inter-batch delay is a
scheduling pause with no effect on the data flow and is not modelled. -/
def orchGo (svc : Nat → List Str → Except SvcErr (List Str))
    (strings : List Str) (total : Nat) :
    List Nat → List (Str × Str) → List Progress → List (List Str) → OrchOut
  | [], m, evs, att => ⟨m, evs, att, none⟩
  | i :: is, m, evs, att =>
    let c := chunkAt strings i
    let evs' := evs ++
      [⟨PStatus.translating, i + 1, total, some (transMsg i total)⟩]
    match svc i c with
    | Except.ok outs =>
      orchGo svc strings total is (insertBatch m c outs) evs' (att ++ [c])
    | Except.error e => ⟨m, evs', att ++ [c], some e⟩

/-- `processTranslations` (excelService.ts lines 141-182): partition the
unique strings into batches of 20; when there is nothing to translate, emit
the single terminal event and stop without calling the collaborator. -/
def processTranslations (svc : Nat → List Str → Except SvcErr (List Str))
    (m0 : List (Str × Str)) (strings : List Str) : OrchOut :=
  let total := divCeil strings.length 20
  if total = 0 then
    ⟨m0, [⟨PStatus.rebuilding, 0, 0, some (str "No Japanese text found.")⟩],
      [], none⟩
  else orchGo svc strings total (List.range total) m0 [] []

/-- One item of the collaborator's parsed JSON reply (geminiService.ts):
either field may be absent (`undefined`). -/
structure GemItem where
  id : Option Str
  translatedText : Option Str
  deriving DecidableEq

/-- The collaborator's reply at the point response text has been received
(geminiService.ts lines 54-67): empty text (throws), unparseable-or-not-array
JSON (falls back to the inputs), or a parsed item array. -/
inductive GemResp
  | emptyText
  | unparseable
  | items (l : List GemItem)
  deriving DecidableEq

/-- Polymorphic association-list update, for the id-indexed reply map whose
values may be `undefined` (geminiService.ts lines 70-75). -/
def setAssocO (m : List (Str × Option Str)) (k : Str) (v : Option Str) :
    List (Str × Option Str) :=
  match m with
  | [] => [(k, v)]
  | (k', v') :: t => if k = k' then (k, v) :: t else (k', v') :: setAssocO t k v

/-- Polymorphic association-list lookup for the id-indexed reply map. -/
def lookupO (m : List (Str × Option Str)) (k : Str) : Option (Option Str) :=
  match m with
  | [] => none
  | (k', v) :: t => if k = k' then some v else lookupO t k

/-- `parsed.forEach(item => { if (item && item.id !== undefined)
map.set(item.id, item.translatedText) })` (geminiService.ts lines 70-75). -/
def buildIdMap (l : List GemItem) : List (Str × Option Str) :=
  l.foldl
    (fun acc it =>
      match it.id with
      | some i => setAssocO acc i it.translatedText
      | none => acc)
    []

/-- `texts.map((_, index) => translationMap.get(String(index)) ||
texts[index])` (geminiService.ts lines 77-79).  JavaScript `||` falls back to
the original on a missing id, a stored `undefined`, and the empty string. -/
def mapBack (texts : List Str) (idmap : List (Str × Option Str)) : List Str :=
  (List.range texts.length).map (fun j =>
    match lookupO idmap (Nat.repr j).data with
    | some (some t) => if t.isEmpty then texts.getD j [] else t
    | some none => texts.getD j []
    | none => texts.getD j [])

/-- The response-handling tail of `translateBatch` (geminiService.ts lines
54-79): empty response text raises; an unparseable or non-array reply echoes
the inputs; a parsed reply is mapped back positionally by id with fallback to
the original string. -/
def translateBatchOutcome (texts : List Str) (resp : GemResp) :
    Except Unit (List Str) :=
  match resp with
  | GemResp.emptyText => Except.error ()
  | GemResp.unparseable => Except.ok texts
  | GemResp.items l => Except.ok (mapBack texts (buildIdMap l))

/-- Proof-internal: escaping table after the `&lt;` pass of `decodeXml` has
restored `<`. -/
def esc1 (c : Char) : Str :=
  if c = '>' then str "&gt;"
  else if c = '&' then str "&amp;"
  else if c = '\'' then str "&apos;"
  else if c = '"' then str "&quot;"
  else [c]

/-- Proof-internal: escaping table after the `&gt;` pass. -/
def esc2 (c : Char) : Str :=
  if c = '&' then str "&amp;"
  else if c = '\'' then str "&apos;"
  else if c = '"' then str "&quot;"
  else [c]

/-- Proof-internal: escaping table after the `&amp;` pass. -/
def esc3 (c : Char) : Str :=
  if c = '\'' then str "&apos;"
  else if c = '"' then str "&quot;"
  else [c]

/-- Proof-internal: escaping table after the `&apos;` pass. -/
def esc4 (c : Char) : Str :=
  if c = '"' then str "&quot;" else [c]

/-- A translation map that maps every key it holds to itself. -/
def IdOn (m : List (Str × Str)) : Prop :=
  ∀ k v, lookupA m k = some v → v = k

end XlT

namespace XlT

theorem stripPre_spec : ∀ (p s r : Str), stripPre p s = some r → s = p ++ r := by
  intro p
  induction p with
  | nil =>
    intro s r h
    cases s with
    | nil => injection h
    | cons c t => injection h
  | cons a as ih =>
    intro s r h
    cases s with
    | nil => simp [stripPre] at h
    | cons c t =>
      simp only [stripPre] at h
      split at h
      · next hc => subst hc; simpa using ih t r h
      · exact absurd h (by simp)

theorem isPrefixOf_ex : ∀ (p s : Str), p.isPrefixOf s = true →
    s = p ++ s.drop p.length := by
  intro p
  induction p with
  | nil => intro s _; simp
  | cons a as ih =>
    intro s h
    cases s with
    | nil => simp [List.isPrefixOf] at h
    | cons c t =>
      simp only [List.isPrefixOf, Bool.and_eq_true, beq_iff_eq] at h
      obtain ⟨rfl, h2⟩ := h
      simpa using ih t h2

theorem isPrefixOf_self_append : ∀ (p r : Str), p.isPrefixOf (p ++ r) = true := by
  intro p
  induction p with
  | nil => intro r; simp [List.isPrefixOf]
  | cons a as ih => intro r; simp [List.isPrefixOf, ih]

theorem splitAtSub_spec : ∀ (p s a b : Str), splitAtSub p s = some (a, b) →
    s = a ++ p ++ b := by
  intro p s
  induction s with
  | nil =>
    intro a b h
    simp only [splitAtSub] at h
    split at h
    · next hp =>
      cases p with
      | nil => simp at h ⊢; simp [h.1, h.2]
      | cons x xs => simp [List.isPrefixOf] at hp
    · simp at h
  | cons c t ih =>
    intro a b h
    simp only [splitAtSub] at h
    split at h
    · next hp =>
      have he := isPrefixOf_ex p (c :: t) hp
      simp only [Option.some.injEq, Prod.mk.injEq] at h
      rw [he, ← h.1, ← h.2]
      simp
    · next hp =>
      cases ha : splitAtSub p t with
      | none => rw [ha] at h; simp at h
      | some ab =>
        rw [ha] at h
        simp only [Option.map, Option.some.injEq, Prod.mk.injEq] at h
        have := ih ab.1 ab.2 (by rw [ha])
        rw [← h.1, ← h.2]
        simp [this]

theorem dropWhile_head_not {p : Char → Bool} :
    ∀ (l : Str) (x : Char) (xs : Str), l.dropWhile p = x :: xs → p x = false := by
  intro l
  induction l with
  | nil => intro x xs h; simp [List.dropWhile] at h
  | cons c t ih =>
    intro x xs h
    by_cases hc : p c
    · rw [List.dropWhile_cons_of_pos hc] at h; exact ih x xs h
    · rw [List.dropWhile_cons_of_neg hc] at h
      cases h; simpa using hc

theorem tryOpenTag_spec : ∀ (tag s op rest : Str),
    tryOpenTag tag s = some (op, rest) → s = op ++ rest ∧ 0 < op.length := by
  intro tag s op rest h
  simp only [tryOpenTag] at h
  cases hs : stripPre ('<' :: tag) s with
  | none => rw [hs] at h; simp at h
  | some r =>
    rw [hs] at h
    have hsp := stripPre_spec _ _ _ hs
    cases r with
    | nil => simp at h
    | cons c r' =>
      simp only at h
      split at h
      · next hc =>
        simp only [Option.some.injEq, Prod.mk.injEq] at h
        subst hc
        constructor
        · rw [hsp, ← h.1, ← h.2]; simp
        · rw [← h.1]; simp
      · split at h
        · next hws =>
          cases hd : List.dropWhile (fun d => !(d = '>')) r' with
          | nil => rw [hd] at h; simp at h
          | cons d rest' =>
            rw [hd] at h
            simp only [Option.some.injEq, Prod.mk.injEq] at h
            have hdx : d = '>' := by
              have := dropWhile_head_not r' d rest' hd
              simpa using this
            have hr' : List.takeWhile (fun d => !(d = '>')) r' ++
                d :: rest' = r' := by
              have h2 := List.takeWhile_append_dropWhile
                (p := fun d => !(d = '>')) (l := r')
              rw [hd] at h2
              exact h2
            subst hdx
            constructor
            · rw [hsp, ← h.1, ← h.2]
              have hx : ('<' :: tag ++ c ::
                  List.takeWhile (fun d => !(d = '>')) r' ++ ['>']) ++ rest' =
                  '<' :: tag ++ c ::
                  (List.takeWhile (fun d => !(d = '>')) r' ++ '>' :: rest') := by
                simp
              rw [hx, hr']
            · rw [← h.1]; simp
        · simp at h

theorem tagFind_spec : ∀ (tag s op i r : Str),
    tagFind tag s = some (op, i, r) →
    s = op ++ i ++ closeTag tag ++ r ∧ 0 < op.length := by
  intro tag s op i r h
  simp only [tagFind] at h
  cases ho : tryOpenTag tag s with
  | none => rw [ho] at h; simp at h
  | some pr =>
    obtain ⟨o2, r2⟩ := pr
    rw [ho] at h
    obtain ⟨hs, hop⟩ := tryOpenTag_spec tag s o2 r2 ho
    replace h : Option.map (fun ir => (o2, ir.1, ir.2))
        (splitAtSub (closeTag tag) r2) = some (op, i, r) := h
    cases hsp : splitAtSub (closeTag tag) r2 with
    | none => rw [hsp] at h; simp at h
    | some ab =>
      rw [hsp] at h
      simp only [Option.map, Option.some.injEq, Prod.mk.injEq] at h
      have := splitAtSub_spec _ _ _ _ hsp
      refine ⟨?_, by rw [← h.1]; exact hop⟩
      rw [hs, this, ← h.1, ← h.2.1, ← h.2.2]
      simp

theorem emap_append (f : Char → Str) :
    ∀ (a b : Str), emap f (a ++ b) = emap f a ++ emap f b := by
  intro a b
  induction a with
  | nil => simp [emap]
  | cons c t ih => simp [emap, ih]

theorem emap_id : ∀ (s : Str), emap (fun c => [c]) s = s := by
  intro s
  induction s with
  | nil => rfl
  | cons c t ih => simp [emap, ih]

theorem gscanF_transport {β₁ β₂ : Type} (step₁ : Str → Option (List β₁ × Str))
    (step₂ : Str → Option (List β₂ × Str)) (plain₁ : Char → List β₁)
    (plain₂ : Char → List β₂) (g : β₂ → List β₁)
    (hs : ∀ s, step₁ s =
      (step₂ s).map (fun or => ((or.1.map g).flatten, or.2)))
    (hp : ∀ c, ((plain₂ c).map g).flatten = plain₁ c) :
    ∀ (f : Nat) (s : Str),
      ((gscanF step₂ plain₂ f s).map g).flatten = gscanF step₁ plain₁ f s := by
  intro f
  induction f with
  | zero =>
    intro s
    induction s with
    | nil => simp [gscanF]
    | cons c t ih =>
      simp only [gscanF] at ih ⊢
      simp only [List.map_cons, List.flatten_cons, List.map_append,
        List.flatten_append, ih, hp]
  | succ f ih =>
    intro s
    cases s with
    | nil => simp [gscanF]
    | cons c t =>
      cases h2 : step₂ (c :: t) with
      | some or =>
        obtain ⟨o, r⟩ := or
        have h1 : step₁ (c :: t) = some ((o.map g).flatten, r) := by
          rw [hs, h2]; rfl
        simp only [gscanF, h1, h2, List.map_append, List.flatten_append, ih]
      | none =>
        have h1 : step₁ (c :: t) = none := by rw [hs, h2]; rfl
        simp only [gscanF, h1, h2, List.map_append, List.flatten_append,
          ih, hp]

theorem gscan_transport {β₁ β₂ : Type} (step₁ : Str → Option (List β₁ × Str))
    (step₂ : Str → Option (List β₂ × Str)) (plain₁ : Char → List β₁)
    (plain₂ : Char → List β₂) (g : β₂ → List β₁)
    (hs : ∀ s, step₁ s =
      (step₂ s).map (fun or => ((or.1.map g).flatten, or.2)))
    (hp : ∀ c, ((plain₂ c).map g).flatten = plain₁ c) (s : Str) :
    ((gscan step₂ plain₂ s).map g).flatten = gscan step₁ plain₁ s :=
  gscanF_transport step₁ step₂ plain₁ plain₂ g hs hp s.length s

theorem drop_len_append : ∀ (a b : Str), (a ++ b).drop a.length = b := by
  intro a b
  induction a with
  | nil => simp
  | cons c t ih => simpa using ih

theorem len_drop_le (t : Str) (n : Nat) : (t.drop n).length ≤ t.length := by
  rw [List.length_drop]
  omega

theorem replaceAllF_irrel (pat rep : Str) :
    ∀ (f g : Nat) (s : Str), s.length ≤ f → s.length ≤ g →
      replaceAllF pat rep f s = replaceAllF pat rep g s := by
  intro f
  induction f with
  | zero =>
    intro g s hf _
    have hnil : s = [] := List.eq_nil_of_length_eq_zero (Nat.le_zero.mp hf)
    subst hnil
    cases g <;> simp [replaceAllF]
  | succ f ih =>
    intro g s hf hg
    cases s with
    | nil => cases g <;> simp [replaceAllF]
    | cons c t =>
      cases g with
      | zero => simp at hg
      | succ g' =>
        simp only [List.length_cons, Nat.add_le_add_iff_right] at hf hg
        by_cases hp : pat.isPrefixOf (c :: t)
        · simp only [replaceAllF, hp, if_true]
          congr 1
          exact ih g' _
            (le_trans (len_drop_le _ _) hf)
            (le_trans (len_drop_le _ _) hg)
        · simp only [replaceAllF, hp, if_false, Bool.false_eq_true]
          congr 1
          exact ih g' t hf hg

theorem replaceAll_cons_hit (p : Char) (ps rep : Str) (c : Char) (t : Str)
    (h : (p :: ps).isPrefixOf (c :: t) = true) :
    replaceAll (p :: ps) rep (c :: t) =
      rep ++ replaceAll (p :: ps) rep (t.drop ps.length) := by
  unfold replaceAll
  simp only [List.length_cons, replaceAllF, h, if_true]
  congr 1
  simp only [Nat.add_sub_cancel]
  exact replaceAllF_irrel _ _ _ _ _
    (len_drop_le _ _) (le_refl _)

theorem replaceAll_cons_miss (pat rep : Str) (c : Char) (t : Str)
    (h : pat.isPrefixOf (c :: t) = false) :
    replaceAll pat rep (c :: t) = c :: replaceAll pat rep t := by
  unfold replaceAll
  simp only [List.length_cons, replaceAllF, h, Bool.false_eq_true, if_false]

theorem replaceAll_pat (p : Char) (ps rep t : Str) :
    replaceAll (p :: ps) rep ((p :: ps) ++ t) =
      rep ++ replaceAll (p :: ps) rep t := by
  have h := isPrefixOf_self_append (p :: ps) t
  rw [show (p :: ps) ++ t = p :: (ps ++ t) from rfl] at h ⊢
  rw [replaceAll_cons_hit p ps rep p (ps ++ t) h, drop_len_append]

theorem replaceAll_cons_ne (p : Char) (ps rep : Str) (c : Char) (t : Str)
    (h : ¬ c = p) :
    replaceAll (p :: ps) rep (c :: t) = c :: replaceAll (p :: ps) rep t := by
  apply replaceAll_cons_miss
  have hb : (p == c) = false := beq_eq_false_iff_ne.mpr (fun he => h he.symm)
  simp [List.isPrefixOf, hb]

theorem replaceAll_run (p : Char) (ps rep : Str) :
    ∀ (run t : Str), (∀ c ∈ run, ¬ c = p) →
      replaceAll (p :: ps) rep (run ++ t) =
        run ++ replaceAll (p :: ps) rep t := by
  intro run
  induction run with
  | nil => intro t _; simp
  | cons c run' ih =>
    intro t hne
    rw [List.cons_append,
      replaceAll_cons_ne p ps rep c (run' ++ t) (hne c (by simp)),
      ih t (fun d hd => hne d (by simp [hd]))]
    rfl

theorem replaceAll_blk (p : Char) (ps rep : Str) (b : Char) (bs t : Str)
    (hmiss : (p :: ps).isPrefixOf (b :: (bs ++ t)) = false)
    (hrun : ∀ c ∈ bs, ¬ c = p) :
    replaceAll (p :: ps) rep ((b :: bs) ++ t) =
      (b :: bs) ++ replaceAll (p :: ps) rep t := by
  rw [List.cons_append, replaceAll_cons_miss _ _ _ _ hmiss,
    replaceAll_run p ps rep bs t hrun]
  rfl

theorem containsSub_cons (p : Str) (c : Char) (t : Str) :
    containsSub p (c :: t) = (p.isPrefixOf (c :: t) || containsSub p t) := rfl

theorem prefix_emap_iff (f : Char → Str)
    (hf : ∀ d, f d = [d] ∨ ∃ r, f d = '&' :: r) :
    ∀ (p : Str), (∀ c ∈ p, f c = [c] ∧ ¬ c = '&') →
      ∀ (t : Str), p.isPrefixOf (emap f t) = p.isPrefixOf t := by
  intro p
  induction p with
  | nil => intro _ t; simp [List.isPrefixOf]
  | cons a p' ih =>
    intro hp t
    cases t with
    | nil => simp [emap]
    | cons d t' =>
      rcases hf d with hfd | ⟨r, hfd⟩
      · rw [show emap f (d :: t') = f d ++ emap f t' from rfl, hfd]
        show (a :: p').isPrefixOf (d :: emap f t') =
          (a :: p').isPrefixOf (d :: t')
        simp only [List.isPrefixOf]
        rw [ih (fun c hc => hp c (by simp [hc])) t']
      · rw [show emap f (d :: t') = f d ++ emap f t' from rfl, hfd]
        show (a :: p').isPrefixOf ('&' :: (r ++ emap f t')) =
          (a :: p').isPrefixOf (d :: t')
        have ha : ¬ a = '&' := (hp a (by simp)).2
        have had : ¬ a = d := by
          intro he
          subst he
          have hfa := (hp a (by simp)).1
          rw [hfa] at hfd
          exact ha (by injection hfd)
        simp only [List.isPrefixOf]
        rw [beq_eq_false_iff_ne.mpr ha, beq_eq_false_iff_ne.mpr had]
        rfl

theorem stage1 : ∀ (s : Str),
    replaceAll ['&', 'l', 't', ';'] ['<'] (emap escChar s) = emap esc1 s := by
  intro s
  induction s with
  | nil => rfl
  | cons c t ih =>
    by_cases h1 : c = '<'
    · subst h1
      rw [show emap escChar ('<' :: t) =
          ['&', 'l', 't', ';'] ++ emap escChar t from rfl]
      rw [replaceAll_pat '&' ['l', 't', ';'] ['<'] (emap escChar t), ih]
      rfl
    by_cases h2 : c = '>'
    · subst h2
      rw [show emap escChar ('>' :: t) =
          ('&' :: ['g', 't', ';']) ++ emap escChar t from rfl]
      rw [replaceAll_blk '&' ['l', 't', ';'] ['<'] '&' ['g', 't', ';']
        (emap escChar t) (by rfl) (by decide), ih]
      rfl
    by_cases h3 : c = '&'
    · subst h3
      rw [show emap escChar ('&' :: t) =
          ('&' :: ['a', 'm', 'p', ';']) ++ emap escChar t from rfl]
      rw [replaceAll_blk '&' ['l', 't', ';'] ['<'] '&' ['a', 'm', 'p', ';']
        (emap escChar t) (by rfl) (by decide), ih]
      rfl
    by_cases h4 : c = '\''
    · subst h4
      rw [show emap escChar ('\'' :: t) =
          ('&' :: ['a', 'p', 'o', 's', ';']) ++ emap escChar t from rfl]
      rw [replaceAll_blk '&' ['l', 't', ';'] ['<'] '&' ['a', 'p', 'o', 's', ';']
        (emap escChar t) (by rfl) (by decide), ih]
      rfl
    by_cases h5 : c = '"'
    · subst h5
      rw [show emap escChar ('"' :: t) =
          ('&' :: ['q', 'u', 'o', 't', ';']) ++ emap escChar t from rfl]
      rw [replaceAll_blk '&' ['l', 't', ';'] ['<'] '&' ['q', 'u', 'o', 't', ';']
        (emap escChar t) (by rfl) (by decide), ih]
      rfl
    · have he : escChar c = [c] := by simp [escChar, h1, h2, h3, h4, h5]
      have he1 : esc1 c = [c] := by simp [esc1, h2, h3, h4, h5]
      rw [show emap escChar (c :: t) = escChar c ++ emap escChar t from rfl,
        he, List.singleton_append,
        replaceAll_cons_ne '&' ['l', 't', ';'] ['<'] c (emap escChar t) h3, ih,
        show emap esc1 (c :: t) = esc1 c ++ emap esc1 t from rfl, he1]
      rfl

theorem stage2 : ∀ (s : Str),
    replaceAll ['&', 'g', 't', ';'] ['>'] (emap esc1 s) = emap esc2 s := by
  intro s
  induction s with
  | nil => rfl
  | cons c t ih =>
    by_cases h2 : c = '>'
    · subst h2
      rw [show emap esc1 ('>' :: t) =
          ['&', 'g', 't', ';'] ++ emap esc1 t from rfl]
      rw [replaceAll_pat '&' ['g', 't', ';'] ['>'] (emap esc1 t), ih]
      rfl
    by_cases h3 : c = '&'
    · subst h3
      rw [show emap esc1 ('&' :: t) =
          ('&' :: ['a', 'm', 'p', ';']) ++ emap esc1 t from rfl]
      rw [replaceAll_blk '&' ['g', 't', ';'] ['>'] '&' ['a', 'm', 'p', ';']
        (emap esc1 t) (by rfl) (by decide), ih]
      rfl
    by_cases h4 : c = '\''
    · subst h4
      rw [show emap esc1 ('\'' :: t) =
          ('&' :: ['a', 'p', 'o', 's', ';']) ++ emap esc1 t from rfl]
      rw [replaceAll_blk '&' ['g', 't', ';'] ['>'] '&' ['a', 'p', 'o', 's', ';']
        (emap esc1 t) (by rfl) (by decide), ih]
      rfl
    by_cases h5 : c = '"'
    · subst h5
      rw [show emap esc1 ('"' :: t) =
          ('&' :: ['q', 'u', 'o', 't', ';']) ++ emap esc1 t from rfl]
      rw [replaceAll_blk '&' ['g', 't', ';'] ['>'] '&' ['q', 'u', 'o', 't', ';']
        (emap esc1 t) (by rfl) (by decide), ih]
      rfl
    · have he : esc1 c = [c] := by simp [esc1, h2, h3, h4, h5]
      have he2 : esc2 c = [c] := by simp [esc2, h3, h4, h5]
      rw [show emap esc1 (c :: t) = esc1 c ++ emap esc1 t from rfl,
        he, List.singleton_append,
        replaceAll_cons_ne '&' ['g', 't', ';'] ['>'] c (emap esc1 t) h3, ih,
        show emap esc2 (c :: t) = esc2 c ++ emap esc2 t from rfl, he2]
      rfl

theorem stage3 : ∀ (s : Str),
    replaceAll ['&', 'a', 'm', 'p', ';'] ['&'] (emap esc2 s) = emap esc3 s := by
  intro s
  induction s with
  | nil => rfl
  | cons c t ih =>
    by_cases h3 : c = '&'
    · subst h3
      rw [show emap esc2 ('&' :: t) =
          ['&', 'a', 'm', 'p', ';'] ++ emap esc2 t from rfl]
      rw [replaceAll_pat '&' ['a', 'm', 'p', ';'] ['&'] (emap esc2 t), ih]
      rfl
    by_cases h4 : c = '\''
    · subst h4
      rw [show emap esc2 ('\'' :: t) =
          ('&' :: ['a', 'p', 'o', 's', ';']) ++ emap esc2 t from rfl]
      rw [replaceAll_blk '&' ['a', 'm', 'p', ';'] ['&'] '&'
        ['a', 'p', 'o', 's', ';'] (emap esc2 t) (by rfl) (by decide), ih]
      rfl
    by_cases h5 : c = '"'
    · subst h5
      rw [show emap esc2 ('"' :: t) =
          ('&' :: ['q', 'u', 'o', 't', ';']) ++ emap esc2 t from rfl]
      rw [replaceAll_blk '&' ['a', 'm', 'p', ';'] ['&'] '&'
        ['q', 'u', 'o', 't', ';'] (emap esc2 t) (by rfl) (by decide), ih]
      rfl
    · have he : esc2 c = [c] := by simp [esc2, h3, h4, h5]
      have he3 : esc3 c = [c] := by simp [esc3, h4, h5]
      rw [show emap esc2 (c :: t) = esc2 c ++ emap esc2 t from rfl,
        he, List.singleton_append,
        replaceAll_cons_ne '&' ['a', 'm', 'p', ';'] ['&'] c (emap esc2 t) h3,
        ih, show emap esc3 (c :: t) = esc3 c ++ emap esc3 t from rfl, he3]
      rfl

theorem esc3_shape : ∀ d, esc3 d = [d] ∨ ∃ r, esc3 d = '&' :: r := by
  intro d
  by_cases h4 : d = '\''
  · subst h4; right; exact ⟨['a', 'p', 'o', 's', ';'], rfl⟩
  by_cases h5 : d = '"'
  · subst h5; right
    refine ⟨['q', 'u', 'o', 't', ';'], ?_⟩
    rw [show esc3 '"' = str "&quot;" from by simp [esc3]]
    rfl
  · left; simp [esc3, h4, h5]

theorem esc4_shape : ∀ d, esc4 d = [d] ∨ ∃ r, esc4 d = '&' :: r := by
  intro d
  by_cases h5 : d = '"'
  · subst h5; right; exact ⟨['q', 'u', 'o', 't', ';'], rfl⟩
  · left; simp [esc4, h5]

theorem stage4 : ∀ (s : Str), containsSub ['&', 'a', 'p', 'o', 's', ';'] s = false →
    replaceAll ['&', 'a', 'p', 'o', 's', ';'] ['\''] (emap esc3 s) =
      emap esc4 s := by
  intro s
  induction s with
  | nil => intro _; rfl
  | cons c t ih =>
    intro h
    rw [containsSub_cons] at h
    rcases Bool.or_eq_false_iff.mp h with ⟨hpre, htail⟩
    by_cases h4 : c = '\''
    · subst h4
      rw [show emap esc3 ('\'' :: t) =
          ['&', 'a', 'p', 'o', 's', ';'] ++ emap esc3 t from rfl]
      rw [replaceAll_pat '&' ['a', 'p', 'o', 's', ';'] ['\''] (emap esc3 t),
        ih htail]
      rfl
    by_cases h5 : c = '"'
    · subst h5
      rw [show emap esc3 ('"' :: t) =
          ('&' :: ['q', 'u', 'o', 't', ';']) ++ emap esc3 t from rfl]
      rw [replaceAll_blk '&' ['a', 'p', 'o', 's', ';'] ['\''] '&'
        ['q', 'u', 'o', 't', ';'] (emap esc3 t) (by rfl) (by decide), ih htail]
      rfl
    by_cases h3 : c = '&'
    · subst h3
      have htr : ['a', 'p', 'o', 's', ';'].isPrefixOf (emap esc3 t) =
          ['a', 'p', 'o', 's', ';'].isPrefixOf t :=
        prefix_emap_iff esc3 esc3_shape _ (by decide) t
      have hpre2 : ['a', 'p', 'o', 's', ';'].isPrefixOf t = false := by
        simpa [List.isPrefixOf] using hpre
      have hmiss : (['&', 'a', 'p', 'o', 's', ';'] : Str).isPrefixOf
          ('&' :: emap esc3 t) = false := by
        simp only [List.isPrefixOf] at hpre2 ⊢
        rw [htr]
        simpa using hpre2
      rw [show emap esc3 ('&' :: t) = '&' :: emap esc3 t from rfl,
        replaceAll_cons_miss _ _ _ _ hmiss, ih htail]
      rfl
    · have he : esc3 c = [c] := by simp [esc3, h4, h5]
      have he4 : esc4 c = [c] := by simp [esc4, h5]
      rw [show emap esc3 (c :: t) = esc3 c ++ emap esc3 t from rfl,
        he, List.singleton_append,
        replaceAll_cons_ne '&' ['a', 'p', 'o', 's', ';'] ['\''] c
          (emap esc3 t) h3,
        ih htail, show emap esc4 (c :: t) = esc4 c ++ emap esc4 t from rfl,
        he4]
      rfl

theorem stage5 : ∀ (s : Str), containsSub ['&', 'q', 'u', 'o', 't', ';'] s = false →
    replaceAll ['&', 'q', 'u', 'o', 't', ';'] ['"'] (emap esc4 s) = s := by
  intro s
  induction s with
  | nil => intro _; rfl
  | cons c t ih =>
    intro h
    rw [containsSub_cons] at h
    rcases Bool.or_eq_false_iff.mp h with ⟨hpre, htail⟩
    by_cases h5 : c = '"'
    · subst h5
      rw [show emap esc4 ('"' :: t) =
          ['&', 'q', 'u', 'o', 't', ';'] ++ emap esc4 t from rfl]
      rw [replaceAll_pat '&' ['q', 'u', 'o', 't', ';'] ['"'] (emap esc4 t),
        ih htail]
      rfl
    by_cases h3 : c = '&'
    · subst h3
      have htr : ['q', 'u', 'o', 't', ';'].isPrefixOf (emap esc4 t) =
          ['q', 'u', 'o', 't', ';'].isPrefixOf t :=
        prefix_emap_iff esc4 esc4_shape _ (by decide) t
      have hpre2 : ['q', 'u', 'o', 't', ';'].isPrefixOf t = false := by
        simpa [List.isPrefixOf] using hpre
      have hmiss : (['&', 'q', 'u', 'o', 't', ';'] : Str).isPrefixOf
          ('&' :: emap esc4 t) = false := by
        simp only [List.isPrefixOf] at hpre2 ⊢
        rw [htr]
        simpa using hpre2
      rw [show emap esc4 ('&' :: t) = '&' :: emap esc4 t from rfl,
        replaceAll_cons_miss _ _ _ _ hmiss, ih htail]
    · have he : esc4 c = [c] := by simp [esc4, h5]
      rw [show emap esc4 (c :: t) = esc4 c ++ emap esc4 t from rfl,
        he, List.singleton_append,
        replaceAll_cons_ne '&' ['q', 'u', 'o', 't', ';'] ['"'] c
          (emap esc4 t) h3,
        ih htail]

theorem prefix_through_replaceAll (p : Char) (ps : Str) (r0 : Char) :
    ∀ (q : Str), r0 ∉ q → ∀ (w : Str),
      q.isPrefixOf (replaceAll (p :: ps) [r0] w) = true →
      q.isPrefixOf w = true := by
  intro q
  induction q with
  | nil => intro _ w _; simp [List.isPrefixOf]
  | cons qc q' ih =>
    intro hq w h
    cases w with
    | nil =>
      rw [show replaceAll (p :: ps) [r0] [] = [] from rfl] at h
      simp [List.isPrefixOf] at h
    | cons c t =>
      have hq1 : ¬ r0 = qc := fun he => hq (by simp [he])
      have hq2 : r0 ∉ q' := fun hm => hq (by simp [hm])
      by_cases hp : (p :: ps).isPrefixOf (c :: t) = true
      · rw [replaceAll_cons_hit p ps [r0] c t hp] at h
        rw [show ([r0] ++ replaceAll (p :: ps) [r0]
            (t.drop ps.length)) = r0 :: replaceAll (p :: ps) [r0]
            (t.drop ps.length) from rfl] at h
        simp only [List.isPrefixOf, Bool.and_eq_true, beq_iff_eq] at h
        exact absurd h.1.symm hq1
      · have hp' : (p :: ps).isPrefixOf (c :: t) = false :=
          Bool.not_eq_true _ ▸ eq_false_of_ne_true hp
        rw [replaceAll_cons_miss _ _ _ _ hp'] at h
        simp only [List.isPrefixOf, Bool.and_eq_true] at h ⊢
        exact ⟨h.1, ih hq2 t h.2⟩

theorem containsSub_drop : ∀ (p s : Str), containsSub p s = false →
    ∀ (n : Nat), containsSub p (s.drop n) = false := by
  intro p s
  induction s with
  | nil => intro h n; simpa using h
  | cons c t ih =>
    intro h n
    cases n with
    | zero => simpa using h
    | succ n' =>
      rw [containsSub_cons] at h
      exact ih (Bool.or_eq_false_iff.mp h).2 n'

theorem containsSub_replaceAll_self (p : Char) (ps : Str) (r0 : Char)
    (hr : r0 ∉ p :: ps) :
    ∀ (n : Nat) (w : Str), w.length ≤ n →
      containsSub (p :: ps) (replaceAll (p :: ps) [r0] w) = false := by
  have hne : ¬ p = r0 := fun he => hr (by simp [he])
  intro n
  induction n with
  | zero =>
    intro w hw
    have : w = [] := List.eq_nil_of_length_eq_zero (Nat.le_zero.mp hw)
    subst this
    simp [containsSub, List.isPrefixOf]
  | succ n ih =>
    intro w hw
    cases w with
    | nil => simp [containsSub, List.isPrefixOf]
    | cons c t =>
      simp only [List.length_cons, Nat.add_le_add_iff_right] at hw
      by_cases hp : (p :: ps).isPrefixOf (c :: t) = true
      · rw [replaceAll_cons_hit p ps [r0] c t hp,
          show ([r0] ++ replaceAll (p :: ps) [r0] (t.drop ps.length)) =
            r0 :: replaceAll (p :: ps) [r0] (t.drop ps.length) from rfl,
          containsSub_cons]
        apply Bool.or_eq_false_iff.mpr
        refine ⟨?_, ih _ (le_trans (len_drop_le _ _) hw)⟩
        simp [List.isPrefixOf, beq_eq_false_iff_ne.mpr hne]
      · have hp' : (p :: ps).isPrefixOf (c :: t) = false :=
          Bool.not_eq_true _ ▸ eq_false_of_ne_true hp
        rw [replaceAll_cons_miss _ _ _ _ hp', containsSub_cons]
        apply Bool.or_eq_false_iff.mpr
        refine ⟨?_, ih t hw⟩
        cases hq : (p :: ps).isPrefixOf (c :: replaceAll (p :: ps) [r0] t) with
        | false => rfl
        | true =>
          exfalso
          simp only [List.isPrefixOf, Bool.and_eq_true, beq_iff_eq] at hq
          have hps : ps.isPrefixOf t = true :=
            prefix_through_replaceAll p ps r0 ps
              (fun hm => hr (by simp [hm])) t hq.2
          have hx : (p :: ps).isPrefixOf (c :: t) = true := by
            simp only [List.isPrefixOf, Bool.and_eq_true, beq_iff_eq]
            exact ⟨hq.1, hps⟩
          rw [hp'] at hx
          exact Bool.false_ne_true hx

theorem containsSub_replaceAll_pres (p : Char) (ps : Str) (r0 : Char)
    (q : Char) (qs : Str) (hrq : r0 ∉ q :: qs) :
    ∀ (n : Nat) (w : Str), w.length ≤ n →
      containsSub (q :: qs) w = false →
      containsSub (q :: qs) (replaceAll (p :: ps) [r0] w) = false := by
  have hne : ¬ q = r0 := fun he => hrq (by simp [he])
  intro n
  induction n with
  | zero =>
    intro w hw _
    have : w = [] := List.eq_nil_of_length_eq_zero (Nat.le_zero.mp hw)
    subst this
    simp [containsSub, List.isPrefixOf]
  | succ n ih =>
    intro w hw h
    cases w with
    | nil => simp [containsSub, List.isPrefixOf]
    | cons c t =>
      simp only [List.length_cons, Nat.add_le_add_iff_right] at hw
      rw [containsSub_cons] at h
      rcases Bool.or_eq_false_iff.mp h with ⟨hpre, htail⟩
      by_cases hp : (p :: ps).isPrefixOf (c :: t) = true
      · rw [replaceAll_cons_hit p ps [r0] c t hp,
          show ([r0] ++ replaceAll (p :: ps) [r0] (t.drop ps.length)) =
            r0 :: replaceAll (p :: ps) [r0] (t.drop ps.length) from rfl,
          containsSub_cons]
        apply Bool.or_eq_false_iff.mpr
        refine ⟨?_, ih _ (le_trans (len_drop_le _ _) hw)
          (containsSub_drop _ _ htail _)⟩
        simp [List.isPrefixOf, beq_eq_false_iff_ne.mpr hne]
      · have hp' : (p :: ps).isPrefixOf (c :: t) = false :=
          Bool.not_eq_true _ ▸ eq_false_of_ne_true hp
        rw [replaceAll_cons_miss _ _ _ _ hp', containsSub_cons]
        apply Bool.or_eq_false_iff.mpr
        refine ⟨?_, ih t hw htail⟩
        cases hq : (q :: qs).isPrefixOf (c :: replaceAll (p :: ps) [r0] t) with
        | false => rfl
        | true =>
          exfalso
          simp only [List.isPrefixOf, Bool.and_eq_true, beq_iff_eq] at hq
          have hqs : qs.isPrefixOf t = true :=
            prefix_through_replaceAll p ps r0 qs
              (fun hm => hrq (by simp [hm])) t hq.2
          have hx : (q :: qs).isPrefixOf (c :: t) = true := by
            simp only [List.isPrefixOf, Bool.and_eq_true, beq_iff_eq]
            exact ⟨hq.1, hqs⟩
          rw [hpre] at hx
          exact Bool.false_ne_true hx

theorem decodeXml_eqn (s : Str) : decodeXml s =
    replaceAll ['&', 'q', 'u', 'o', 't', ';'] ['"']
      (replaceAll ['&', 'a', 'p', 'o', 's', ';'] ['\'']
        (replaceAll ['&', 'a', 'm', 'p', ';'] ['&']
          (replaceAll ['&', 'g', 't', ';'] ['>']
            (replaceAll ['&', 'l', 't', ';'] ['<'] s)))) := rfl

theorem noApos_decodeXml (y : Str) :
    containsSub ['&', 'a', 'p', 'o', 's', ';'] (decodeXml y) = false := by
  rw [decodeXml_eqn]
  exact containsSub_replaceAll_pres '&' ['q', 'u', 'o', 't', ';'] '"' '&'
    ['a', 'p', 'o', 's', ';'] (by decide) _ _ (le_refl _)
    (containsSub_replaceAll_self '&' ['a', 'p', 'o', 's', ';'] '\''
      (by decide) _ _ (le_refl _))

theorem noQuot_decodeXml (y : Str) :
    containsSub ['&', 'q', 'u', 'o', 't', ';'] (decodeXml y) = false := by
  rw [decodeXml_eqn]
  exact containsSub_replaceAll_self '&' ['q', 'u', 'o', 't', ';'] '"'
    (by decide) _ _ (le_refl _)

theorem decode_escape (s : Str)
    (h4 : containsSub ['&', 'a', 'p', 'o', 's', ';'] s = false)
    (h5 : containsSub ['&', 'q', 'u', 'o', 't', ';'] s = false) :
    decodeXml (escapeXml s) = s := by
  rw [show escapeXml s = emap escChar s from rfl, decodeXml_eqn,
    stage1, stage2, stage3, stage4 s h4, stage5 s h5]

theorem roundKey (y : Str) :
    decodeXml (escapeXml (decodeXml y)) = decodeXml y :=
  decode_escape _ (noApos_decodeXml y) (noQuot_decodeXml y)

theorem gscanF_irrel {β : Type} (step : Str → Option (List β × Str))
    (plain : Char → List β)
    (hstep : ∀ s o r, step s = some (o, r) → r.length < s.length) :
    ∀ (f g : Nat) (s : Str), s.length ≤ f → s.length ≤ g →
      gscanF step plain f s = gscanF step plain g s := by
  intro f
  induction f with
  | zero =>
    intro g s hf _
    have hnil : s = [] := List.eq_nil_of_length_eq_zero (Nat.le_zero.mp hf)
    subst hnil
    cases g <;> simp [gscanF]
  | succ f ih =>
    intro g s hf hg
    cases s with
    | nil => cases g <;> simp [gscanF]
    | cons c t =>
      cases g with
      | zero => simp at hg
      | succ g' =>
        simp only [List.length_cons, Nat.add_le_add_iff_right] at hf hg
        cases h2 : step (c :: t) with
        | some or =>
          obtain ⟨o, r⟩ := or
          have hr := hstep _ _ _ h2
          simp only [List.length_cons] at hr
          simp only [gscanF, h2]
          rw [ih g' r (by omega) (by omega)]
        | none =>
          simp only [gscanF, h2]
          rw [ih g' t hf hg]

theorem gscan_cons_hit {β : Type} (step : Str → Option (List β × Str))
    (plain : Char → List β)
    (hstep : ∀ s o r, step s = some (o, r) → r.length < s.length)
    (c : Char) (t : Str) (o : List β) (r : Str)
    (h : step (c :: t) = some (o, r)) :
    gscan step plain (c :: t) = o ++ gscan step plain r := by
  unfold gscan
  have hr := hstep _ _ _ h
  simp only [List.length_cons] at hr
  simp only [List.length_cons, gscanF, h]
  rw [gscanF_irrel step plain hstep t.length r.length r (by omega) (le_refl _)]

theorem gscan_cons_miss {β : Type} (step : Str → Option (List β × Str))
    (plain : Char → List β) (c : Char) (t : Str)
    (h : step (c :: t) = none) :
    gscan step plain (c :: t) = plain c ++ gscan step plain t := by
  unfold gscan
  simp only [List.length_cons, gscanF, h]

theorem tagFind_lt (tag s : Str) (x : Str × Str × Str)
    (h : tagFind tag s = some x) : x.2.2.length < s.length := by
  obtain ⟨hs, hop⟩ := tagFind_spec tag s x.1 x.2.1 x.2.2 h
  rw [hs]
  simp [closeTag]
  omega

theorem siFind_lt (s : Str) (x : Str × Str) (h : siFind s = some x) :
    x.2.length < s.length := by
  simp only [siFind] at h
  split at h
  · next hpre =>
    have := splitAtSub_spec (str "</si>") (s.drop 4) x.1 x.2 h
    have h4 := isPrefixOf_ex (str "<si>") s hpre
    rw [show (str "<si>").length = 4 from rfl] at h4
    rw [h4, this]
    simp [str]
    omega
  · simp at h

theorem rwInner_decode (m : List (Str × Str)) (hm : IdOn m) (inner : Str) :
    decodeXml (rwInner m inner) = decodeXml inner := by
  cases hl : lookupA m (decodeXml inner) with
  | none => simp [rwInner, hl]
  | some v =>
    rw [show rwInner m inner = escapeXml v from by simp [rwInner, hl],
      hm _ _ hl]
    exact roundKey inner

theorem escapeXml_no_lt : ∀ (v : Str) (c : Char), c ∈ escapeXml v → ¬ c = '<' := by
  intro v
  induction v with
  | nil => intro c hc; simp [escapeXml, emap] at hc
  | cons d t ih =>
    intro c hc he
    subst he
    rw [show escapeXml (d :: t) = escChar d ++ escapeXml t from rfl] at hc
    rcases List.mem_append.mp hc with h1 | h2
    · by_cases e1 : d = '<'
      · subst e1; revert h1; decide
      by_cases e2 : d = '>'
      · subst e2; revert h1; decide
      by_cases e3 : d = '&'
      · subst e3; revert h1; decide
      by_cases e4 : d = '\''
      · subst e4; revert h1; decide
      by_cases e5 : d = '"'
      · subst e5; revert h1; decide
      · rw [show escChar d = [d] from by simp [escChar, e1, e2, e3, e4, e5]]
          at h1
        simp at h1
        exact e1 h1.symm
    · exact ih '<' h2 rfl

theorem contains_rPh_tail : ∀ (E : Str), (∀ c ∈ E, ¬ c = '<') →
    containsSub (str "<rPh>") (E ++ str "</t>") = false := by
  intro E
  induction E with
  | nil => intro _; decide
  | cons c E' ih =>
    intro hE
    rw [List.cons_append, containsSub_cons]
    apply Bool.or_eq_false_iff.mpr
    refine ⟨?_, ih (fun d hd => hE d (by simp [hd]))⟩
    have hc : ¬ '<' = c := fun he => hE c (by simp) he.symm
    simp [str, List.isPrefixOf, beq_eq_false_iff_ne.mpr hc]

theorem contains_rPh_wrap (E : Str) (hE : ∀ c ∈ E, ¬ c = '<') :
    containsSub (str "<rPh>") (str "<t>" ++ E ++ str "</t>") = false := by
  rw [show str "<t>" ++ E ++ str "</t>" =
    '<' :: 't' :: '>' :: (E ++ str "</t>") from by simp [str]]
  rw [containsSub_cons]
  apply Bool.or_eq_false_iff.mpr
  refine ⟨by rfl, ?_⟩
  rw [containsSub_cons]
  apply Bool.or_eq_false_iff.mpr
  refine ⟨by rfl, ?_⟩
  rw [containsSub_cons]
  apply Bool.or_eq_false_iff.mpr
  exact ⟨by rfl, contains_rPh_tail E hE⟩

theorem stripRPh_no : ∀ (s : Str),
    containsSub (str "<rPh>") s = false → stripRPh s = s := by
  intro s
  induction s with
  | nil => intro _; rfl
  | cons c t ih =>
    intro h
    rw [containsSub_cons] at h
    rcases Bool.or_eq_false_iff.mp h with ⟨hpre, htail⟩
    have ht := ih htail
    unfold stripRPh at ht ⊢
    rw [gscan_cons_miss _ _ c t (by simp [hpre]), ht]
    rfl

theorem splitAtSub_end (close : Str) (hc : ∃ cs, close = '<' :: cs) :
    ∀ (E : Str), (∀ c ∈ E, ¬ c = '<') →
      splitAtSub close (E ++ close) = some (E, []) := by
  obtain ⟨cs, rfl⟩ := hc
  intro E
  induction E with
  | nil =>
    intro _
    have hp : ('<' :: cs).isPrefixOf ('<' :: cs) = true := by
      have := isPrefixOf_self_append ('<' :: cs) []
      simpa using this
    simp only [List.nil_append]
    simp [splitAtSub, hp, List.drop_length]
  | cons c E' ih =>
    intro hE
    have hc1 : ¬ '<' = c := fun he => hE c (by simp) he.symm
    have hp : ('<' :: cs).isPrefixOf (c :: (E' ++ ('<' :: cs))) = false := by
      simp [List.isPrefixOf, beq_eq_false_iff_ne.mpr hc1]
    rw [List.cons_append]
    simp only [splitAtSub]
    rw [hp]
    simp only [Bool.false_eq_true, if_false]
    rw [ih (fun d hd => hE d (by simp [hd]))]
    rfl

theorem tagFind_eq (tag s op rest : Str)
    (h1 : tryOpenTag tag s = some (op, rest)) :
    tagFind tag s =
      (splitAtSub (closeTag tag) rest).map (fun ir => (op, ir.1, ir.2)) := by
  unfold tagFind
  rw [h1]

theorem collectT_step_lt : ∀ (s : Str) (o : List Char) (r : Str),
    (tagFind (str "t") s).map (fun x => (x.2.1, x.2.2)) = some (o, r) →
    r.length < s.length := by
  intro s o r h
  cases hf : tagFind (str "t") s with
  | none => rw [hf] at h; simp at h
  | some x =>
    rw [hf] at h
    simp only [Option.map, Option.some.injEq, Prod.mk.injEq] at h
    have hlt := tagFind_lt (str "t") s x hf
    rw [h.2] at hlt
    exact hlt

theorem collectT_wrap (E : Str) (hE : ∀ c ∈ E, ¬ c = '<') :
    collectT (str "<t>" ++ E ++ str "</t>") = E := by
  have hshape : str "<t>" ++ E ++ str "</t>" =
      '<' :: 't' :: '>' :: (E ++ str "</t>") := by simp [str]
  rw [hshape]
  have hfind : tagFind (str "t") ('<' :: 't' :: '>' :: (E ++ str "</t>")) =
      some ('<' :: (str "t" ++ ['>']), E, []) := by
    rw [tagFind_eq (str "t") ('<' :: 't' :: '>' :: (E ++ str "</t>"))
      ('<' :: (str "t" ++ ['>'])) (E ++ str "</t>") rfl]
    rw [show closeTag (str "t") = str "</t>" from rfl,
      splitAtSub_end (str "</t>") ⟨str "/t>", rfl⟩ E hE]
    rfl
  unfold collectT
  rw [gscan_cons_hit _ _ collectT_step_lt
    '<' ('t' :: '>' :: (E ++ str "</t>")) E [] (by rw [hfind]; rfl)]
  simp [gscan, gscanF]

theorem rwSiInner_cand (m : List (Str × Str)) (hm : IdOn m) (inner : Str) :
    siCandidate (rwSiInner m inner) = siCandidate inner := by
  cases hl : lookupA m (siCandidate inner) with
  | none => simp [rwSiInner, hl]
  | some v =>
    rw [show rwSiInner m inner = str "<t>" ++ escapeXml v ++ str "</t>"
      from by simp [rwSiInner, hl]]
    have hE : ∀ c ∈ escapeXml v, ¬ c = '<' := escapeXml_no_lt v
    show decodeXml (collectT (stripRPh (str "<t>" ++ escapeXml v ++
      str "</t>"))) = siCandidate inner
    rw [stripRPh_no _ (contains_rPh_wrap _ hE), collectT_wrap _ hE, hm _ _ hl]
    exact roundKey (collectT (stripRPh inner))

theorem rwSheetTag_hit (m : List (Str × Str)) (tagTxt pre val post v : Str)
    (hf : findNameAttr tagTxt = some (pre, val, post))
    (hl : lookupA m (decodeXml val) = some v) :
    rwSheetTag m tagTxt =
      pre ++ str "name=\"" ++ escapeXml (sanitizeSheetName v) ++
        '"' :: post := by
  simp [rwSheetTag, hf, hl]

theorem sanitize_ok (v : Str) :
    (∀ c ∈ sanitizeSheetName v, forbiddenChar c = false) ∧
      (sanitizeSheetName v).length ≤ 31 := by
  constructor
  · intro c hc
    unfold sanitizeSheetName at hc
    rcases List.mem_map.mp (List.take_subset _ _ hc) with ⟨d, _, hd⟩
    rw [← hd]
    by_cases h : forbiddenChar d = true
    · rw [if_pos h]
      decide
    · rw [if_neg h]
      exact Bool.not_eq_true _ ▸ eq_false_of_ne_true h
  · exact List.length_take_le _ _

theorem idOn_single (a : Str) : IdOn [(a, a)] := by
  intro k v h
  by_cases hk : k = a
  · simp [lookupA, hk] at h
    rw [← h, hk]
  · simp [lookupA, hk] at h

theorem replaceTagContent_segs (tag : Str) (m : List (Str × Str)) (s : Str) :
    replaceTagContent tag m s =
      ((scanTagSegs tag s).map (renderSeg tag m)).flatten := by
  refine (gscan_transport
    (fun s' => (tagFind tag s').map
      (fun x => (x.1 ++ rwInner m x.2.1 ++ closeTag tag, x.2.2)))
    (fun s' => (tagFind tag s').map (fun x => ([Seg.span x.1 x.2.1], x.2.2)))
    (fun c => [c]) (fun c => [Seg.plain c]) (renderSeg tag m) ?_ ?_ s).symm
  · intro s'
    cases h : tagFind tag s' with
    | none => simp [h]
    | some x => simp [h, renderSeg]
  · intro c
    simp [renderSeg]

theorem replaceSharedStrings_segs (m : List (Str × Str)) (s : Str) :
    replaceSharedStrings m s =
      ((scanSiSegs s).map (renderSiSeg m)).flatten := by
  have hs : ∀ s', ((siFind s').map
      (fun ir => (str "<si>" ++ rwSiInner m ir.1 ++ str "</si>", ir.2))) =
      ((siFind s').map (fun ir => ([SiSeg.block ir.1], ir.2))).map
        (fun or => ((or.1.map (renderSiSeg m)).flatten, or.2)) := by
    intro s'
    cases h : siFind s' with
    | none => simp
    | some x => simp [renderSiSeg]
  have hp : ∀ c, (([SiSeg.plain c]).map (renderSiSeg m)).flatten = [c] := by
    intro c
    simp [renderSiSeg]
  have h1 : replaceSharedStrings m s = gscan (fun s' => (siFind s').map
      (fun ir => (str "<si>" ++ rwSiInner m ir.1 ++ str "</si>", ir.2)))
      (fun c => [c]) s := rfl
  have h2 : scanSiSegs s = gscan (fun s' => (siFind s').map
      (fun ir => ([SiSeg.block ir.1], ir.2)))
      (fun c => [SiSeg.plain c]) s := rfl
  rw [h1, h2]
  exact (gscan_transport _ _ _ _ _ hs hp s).symm

theorem replaceSheetNames_segs (m : List (Str × Str)) (s : Str) :
    replaceSheetNames m s =
      ((scanSheetSegs s).map (renderSheetSeg m)).flatten := by
  have hs : ∀ s', ((tryOpenTag (str "sheet") s').map
      (fun x => (rwSheetTag m x.1, x.2))) =
      ((tryOpenTag (str "sheet") s').map
        (fun x => ([SheetSeg.tag x.1], x.2))).map
        (fun or => ((or.1.map (renderSheetSeg m)).flatten, or.2)) := by
    intro s'
    cases h : tryOpenTag (str "sheet") s' with
    | none => simp
    | some x => simp [renderSheetSeg]
  have hp : ∀ c, (([SheetSeg.plain c]).map (renderSheetSeg m)).flatten =
      [c] := by
    intro c
    simp [renderSheetSeg]
  have h1 : replaceSheetNames m s = gscan
      (fun s' => (tryOpenTag (str "sheet") s').map
        (fun x => (rwSheetTag m x.1, x.2))) (fun c => [c]) s := rfl
  have h2 : scanSheetSegs s = gscan
      (fun s' => (tryOpenTag (str "sheet") s').map
        (fun x => ([SheetSeg.tag x.1], x.2)))
      (fun c => [SheetSeg.plain c]) s := rfl
  rw [h1, h2]
  exact (gscan_transport _ _ _ _ _ hs hp s).symm

/-- C10: for every string `s` containing none of the five entity sequences
`&lt;`, `&gt;`, `&amp;`, `&apos;`, `&quot;` as a substring,
`decodeXml (escapeXml s) = s`; and the precondition is necessary, witnessed
by `"&apos;"` itself, which decoding's fixed replacement order fails to
recover after escaping. -/
theorem c10_escape_decode_roundtrip :
    (∀ s : Str,
      containsSub (str "&lt;") s = false →
      containsSub (str "&gt;") s = false →
      containsSub (str "&amp;") s = false →
      containsSub (str "&apos;") s = false →
      containsSub (str "&quot;") s = false →
      decodeXml (escapeXml s) = s) ∧
    decodeXml (escapeXml (str "&apos;")) ≠ str "&apos;" := by
  constructor
  · intro s _ _ _ h4 h5
    exact decode_escape s h4 h5
  · decide

/-- Witness for C10 at a concrete entity-free input. -/
theorem c10_escape_decode_roundtrip_witness :
    decodeXml (escapeXml (str "価格 <&>\"'10")) = str "価格 <&>\"'10" :=
  c10_escape_decode_roundtrip.1 (str "価格 <&>\"'10")
    (by decide) (by decide) (by decide) (by decide) (by decide)

/-- C1 counterexample: a package whose workbook declares the sheet name
`あ?`.  The name is extracted (`extractFromSheetNames` yields exactly it),
the map maps it to itself, yet rehydration sanitizes the translated sheet
name, substituting `name="あ_"`; the rewritten name span decodes to `あ_`,
not to the original `あ?`, so the round-trip identity fails on rule 5. -/
theorem c1_roundtrip_counterexample :
    extractFromSheetNames (str "<sheet name=\"あ?\" sheetId=\"1\"/>") =
      [str "あ?"] ∧
    lookupA [(str "あ?", str "あ?")] (str "あ?") = some (str "あ?") ∧
    replaceSheetNames [(str "あ?", str "あ?")]
      (str "<sheet name=\"あ?\" sheetId=\"1\"/>") =
      str "<sheet name=\"あ_\" sheetId=\"1\"/>" ∧
    decodeXml (str "あ_") ≠ decodeXml (str "あ?") := by
  refine ⟨by decide, by decide, by decide, by decide⟩

/-- C1 (amended): with a translation map that maps every string it holds to
itself, rehydration is the scan-and-rewrite of the matched spans
(correspondence conjuncts), and every rewritten span decodes to the same
text as the original span for rules 1-4 unconditionally; for rule 5 (sheet
names) the same holds for every span whose translated name is unchanged by
sanitization.  (The unamended claim fails on sheet names that sanitization
changes, per the counterexample.) -/
theorem c1_roundtrip_amended (m : List (Str × Str)) (hm : IdOn m) :
    (∀ (tag s : Str), replaceTagContent tag m s =
      ((scanTagSegs tag s).map (renderSeg tag m)).flatten) ∧
    (∀ inner : Str, decodeXml (rwInner m inner) = decodeXml inner) ∧
    (∀ s : Str, replaceSharedStrings m s =
      ((scanSiSegs s).map (renderSiSeg m)).flatten) ∧
    (∀ inner : Str, siCandidate (rwSiInner m inner) = siCandidate inner) ∧
    (∀ s : Str, replaceSheetNames m s =
      ((scanSheetSegs s).map (renderSheetSeg m)).flatten) ∧
    (∀ tagTxt pre val post v : Str,
      findNameAttr tagTxt = some (pre, val, post) →
      lookupA m (decodeXml val) = some v →
      sanitizeSheetName v = v →
      rwSheetTag m tagTxt =
        pre ++ str "name=\"" ++ escapeXml v ++ '"' :: post ∧
      decodeXml (escapeXml v) = decodeXml val) := by
  refine ⟨fun tag s => replaceTagContent_segs tag m s,
    fun inner => rwInner_decode m hm inner,
    fun s => replaceSharedStrings_segs m s,
    fun inner => rwSiInner_cand m hm inner,
    fun s => replaceSheetNames_segs m s,
    fun tagTxt pre val post v hf hl hsan => ?_⟩
  have hv : v = decodeXml val := hm _ _ hl
  constructor
  · rw [rwSheetTag_hit m tagTxt pre val post v hf hl, hsan]
  · rw [hv]
    exact roundKey val

/-- Witness for C1 (amended) at a concrete one-entry identity map. -/
theorem c1_roundtrip_amended_witness :
    replaceTagContent (str "t") [(str "あ", str "あ")] (str "<t>あ</t>") =
      ((scanTagSegs (str "t") (str "<t>あ</t>")).map
        (renderSeg (str "t") [(str "あ", str "あ")])).flatten ∧
    decodeXml (rwInner [(str "あ", str "あ")] (str "あ")) =
      decodeXml (str "あ") ∧
    siCandidate (rwSiInner [(str "あ", str "あ")] (str "<t>あ</t>")) =
      siCandidate (str "<t>あ</t>") :=
  ⟨(c1_roundtrip_amended _ (idOn_single (str "あ"))).1 (str "t")
      (str "<t>あ</t>"),
    (c1_roundtrip_amended _ (idOn_single (str "あ"))).2.1 (str "あ"),
    (c1_roundtrip_amended _ (idOn_single (str "あ"))).2.2.2.1
      (str "<t>あ</t>")⟩

/-- C5: the sheet-name sanitization replaces each of the characters
`\ / ? * [ ] :` with `_` and truncates to 31 characters, so the
substituted sheet name contains no forbidden character and has length at
most 31; the sheet-name rewrite substitutes exactly the escaped sanitized
translation, while the tag rewrites and the shared-string rewrite
substitute the escaped translation unsanitized. -/
theorem c5_sheet_name_sanitization (m : List (Str × Str)) :
    (∀ v : Str, (∀ c ∈ sanitizeSheetName v, forbiddenChar c = false) ∧
      (sanitizeSheetName v).length ≤ 31) ∧
    (∀ tagTxt pre val post v : Str,
      findNameAttr tagTxt = some (pre, val, post) →
      lookupA m (decodeXml val) = some v →
      rwSheetTag m tagTxt =
        pre ++ str "name=\"" ++ escapeXml (sanitizeSheetName v) ++
          '"' :: post) ∧
    (∀ inner v : Str, lookupA m (decodeXml inner) = some v →
      rwInner m inner = escapeXml v) ∧
    (∀ inner v : Str, lookupA m (siCandidate inner) = some v →
      rwSiInner m inner = str "<t>" ++ escapeXml v ++ str "</t>") := by
  refine ⟨fun v => sanitize_ok v,
    fun tagTxt pre val post v hf hl => rwSheetTag_hit m tagTxt pre val post v hf hl,
    fun inner v hl => by simp [rwInner, hl],
    fun inner v hl => by simp [rwSiInner, hl]⟩

/-- Witness for C5 at a concrete map and sheet tag. -/
theorem c5_sheet_name_sanitization_witness :
    (∀ c ∈ sanitizeSheetName (str "設計?シート[très long nom de feuille]"),
      forbiddenChar c = false) ∧
    (sanitizeSheetName (str "設計?シート[très long nom de feuille]")).length
      ≤ 31 ∧
    rwSheetTag [(str "あ", str "設計?シート")]
      (str "<sheet name=\"あ\" sheetId=\"1\"/>") =
      str "<sheet name=\"設計_シート\" sheetId=\"1\"/>" :=
  have h := (c5_sheet_name_sanitization
    [(str "あ", str "設計?シート")]).1
    (str "設計?シート[très long nom de feuille]")
  have h2 := (c5_sheet_name_sanitization
    [(str "あ", str "設計?シート")]).2.1
    (str "<sheet name=\"あ\" sheetId=\"1\"/>")
    (str "<sheet ") (str "あ") (str " sheetId=\"1\"/>")
    (str "設計?シート") (by decide) (by decide)
  ⟨h.1, h.2, by rw [h2]; decide⟩

theorem map_fst_getDownloadBuffer (m parts) :
    (getDownloadBuffer m parts).map Prod.fst = parts.map Prod.fst := by
  unfold getDownloadBuffer
  rw [List.map_map]
  rfl

theorem processPart_not_matching (m : List (Str × Str)) (n c : Str)
    (h : matchesAnyRule n = false) : processPart m n c = c := by
  unfold matchesAnyRule at h
  simp only [Bool.or_eq_false_iff] at h
  obtain ⟨⟨⟨⟨h1, h2⟩, h3⟩, h4⟩, h5⟩ := h
  unfold processPart
  rw [if_neg (of_decide_eq_false h1), if_neg (by simp [h2]),
    if_neg (by simp [h3]), if_neg (by simp [h4]),
    if_neg (of_decide_eq_false h5)]

/-- C9: rehydration preserves the set of part names (no part is deleted or
added: the output's name list is the input's), and any part whose name
matches none of the five recognized patterns keeps its content
byte-identical. -/
theorem c9_rehydration_frame (m : List (Str × Str))
    (parts : List (Str × Str)) :
    (getDownloadBuffer m parts).map Prod.fst = parts.map Prod.fst ∧
    (∀ n c : Str, matchesAnyRule n = false → processPart m n c = c) ∧
    (∀ n c : Str, (n, c) ∈ parts → matchesAnyRule n = false →
      (n, c) ∈ getDownloadBuffer m parts) := by
  refine ⟨map_fst_getDownloadBuffer m parts,
    fun n c h => processPart_not_matching m n c h,
    fun n c hm h => ?_⟩
  unfold getDownloadBuffer
  refine List.mem_map.mpr ⟨(n, c), hm, ?_⟩
  rw [processPart_not_matching m n c h]

/-- Witness for C9 on a concrete two-part package. -/
theorem c9_rehydration_frame_witness :
    (getDownloadBuffer [(str "あ", str "A")]
      [(str "docProps/app.xml", str "<x>あ</x>"),
       (str "xl/styles.xml", str "<s/>")]).map Prod.fst =
      [(str "docProps/app.xml", str "<x>あ</x>"),
       (str "xl/styles.xml", str "<s/>")].map Prod.fst ∧
    processPart [(str "あ", str "A")] (str "docProps/app.xml")
      (str "<x>あ</x>") = str "<x>あ</x>" :=
  ⟨(c9_rehydration_frame _ _).1,
    (c9_rehydration_frame [(str "あ", str "A")]
      [(str "docProps/app.xml", str "<x>あ</x>"),
       (str "xl/styles.xml", str "<s/>")]).2.1
      (str "docProps/app.xml") (str "<x>あ</x>") (by decide)⟩

theorem hasJapanese_nonempty (d : Str) (h : hasJapanese d = true) :
    d.isEmpty = false := by
  cases d with
  | nil => simp [hasJapanese] at h
  | cons c t => rfl

theorem mem_admitTag (d i : Str) :
    d ∈ admitTag i ↔ (d = decodeXml i ∧ hasJapanese d = true) := by
  unfold admitTag
  by_cases h : (!(decodeXml i).isEmpty && hasJapanese (decodeXml i)) = true
  · rw [if_pos h]
    constructor
    · intro hm
      simp at hm
      subst hm
      exact ⟨rfl, by rw [Bool.and_eq_true] at h; exact h.2⟩
    · intro hx
      simp [hx.1]
  · rw [if_neg h]
    simp only [List.not_mem_nil, false_iff]
    intro hx
    apply h
    rw [hx.1] at hx
    rw [Bool.and_eq_true]
    exact ⟨by rw [hasJapanese_nonempty _ hx.2]; rfl, hx.2⟩

theorem mem_admitSi (d i : Str) :
    d ∈ admitSi i ↔ (d = siCandidate i ∧ hasJapanese d = true) := by
  unfold admitSi
  by_cases h : (!(siCandidate i).isEmpty && hasJapanese (siCandidate i)) = true
  · rw [if_pos h]
    constructor
    · intro hm
      simp at hm
      subst hm
      exact ⟨rfl, by rw [Bool.and_eq_true] at h; exact h.2⟩
    · intro hx
      simp [hx.1]
  · rw [if_neg h]
    simp only [List.not_mem_nil, false_iff]
    intro hx
    apply h
    rw [hx.1] at hx
    rw [Bool.and_eq_true]
    exact ⟨by rw [hasJapanese_nonempty _ hx.2]; rfl, hx.2⟩

theorem mem_admitSheetName (d tagTxt : Str) :
    d ∈ admitSheetName tagTxt ↔
      ((∃ x, findNameAttr tagTxt = some x ∧ d = decodeXml x.2.1) ∧
        hasJapanese d = true) := by
  unfold admitSheetName
  cases hf : findNameAttr tagTxt with
  | none => simp
  | some x =>
    dsimp only
    by_cases h : hasJapanese (decodeXml x.2.1) = true
    · rw [if_pos h]
      constructor
      · intro hm
        simp at hm
        subst hm
        exact ⟨⟨x, rfl, rfl⟩, h⟩
      · intro ⟨⟨y, hy, hd⟩, _⟩
        injection hy with hy
        subst hy
        simp [hd]
    · rw [if_neg h]
      simp only [List.not_mem_nil, false_iff]
      intro ⟨⟨y, hy, hd⟩, hj⟩
      injection hy with hy
      subst hy
      rw [hd] at hj
      exact h hj

theorem extractFromTag_segs (tag s : Str) :
    extractFromTag tag s = ((scanTagSegs tag s).map
      (fun seg => match seg with
        | Seg.span _ i => admitTag i
        | Seg.plain _ => [])).flatten := by
  have hs : ∀ s', ((tagFind tag s').map
      (fun x => (admitTag x.2.1, x.2.2))) =
      ((tagFind tag s').map (fun x => ([Seg.span x.1 x.2.1], x.2.2))).map
        (fun or => ((or.1.map (fun seg => match seg with
          | Seg.span _ i => admitTag i
          | Seg.plain _ => [])).flatten, or.2)) := by
    intro s'
    cases h : tagFind tag s' with
    | none => simp
    | some x => simp
  have hp : ∀ c, (([Seg.plain c]).map (fun seg => match seg with
      | Seg.span _ i => admitTag i
      | Seg.plain _ => [])).flatten = ([] : List Str) := by
    intro c
    simp
  have h1 : extractFromTag tag s = gscan (fun s' => (tagFind tag s').map
      (fun x => (admitTag x.2.1, x.2.2))) (fun _ => []) s := rfl
  have h2 : scanTagSegs tag s = gscan
      (fun s' => (tagFind tag s').map
        (fun x => ([Seg.span x.1 x.2.1], x.2.2)))
      (fun c => [Seg.plain c]) s := rfl
  rw [h1, h2]
  exact (gscan_transport _ _ _ _ _ hs hp s).symm

theorem extractFromSharedStrings_segs (s : Str) :
    extractFromSharedStrings s = ((scanSiSegs s).map
      (fun seg => match seg with
        | SiSeg.block i => admitSi i
        | SiSeg.plain _ => [])).flatten := by
  have hs : ∀ s', ((siFind s').map (fun ir => (admitSi ir.1, ir.2))) =
      ((siFind s').map (fun ir => ([SiSeg.block ir.1], ir.2))).map
        (fun or => ((or.1.map (fun seg => match seg with
          | SiSeg.block i => admitSi i
          | SiSeg.plain _ => [])).flatten, or.2)) := by
    intro s'
    cases h : siFind s' with
    | none => simp
    | some x => simp
  have hp : ∀ c, (([SiSeg.plain c]).map (fun seg => match seg with
      | SiSeg.block i => admitSi i
      | SiSeg.plain _ => [])).flatten = ([] : List Str) := by
    intro c
    simp
  have h1 : extractFromSharedStrings s = gscan
      (fun s' => (siFind s').map (fun ir => (admitSi ir.1, ir.2)))
      (fun _ => []) s := rfl
  have h2 : scanSiSegs s = gscan (fun s' => (siFind s').map
      (fun ir => ([SiSeg.block ir.1], ir.2)))
      (fun c => [SiSeg.plain c]) s := rfl
  rw [h1, h2]
  exact (gscan_transport _ _ _ _ _ hs hp s).symm

theorem extractFromSheetNames_segs (s : Str) :
    extractFromSheetNames s = ((scanSheetSegs s).map
      (fun seg => match seg with
        | SheetSeg.tag t => admitSheetName t
        | SheetSeg.plain _ => [])).flatten := by
  have hs : ∀ s', ((tryOpenTag (str "sheet") s').map
      (fun x => (admitSheetName x.1, x.2))) =
      ((tryOpenTag (str "sheet") s').map
        (fun x => ([SheetSeg.tag x.1], x.2))).map
        (fun or => ((or.1.map (fun seg => match seg with
          | SheetSeg.tag t => admitSheetName t
          | SheetSeg.plain _ => [])).flatten, or.2)) := by
    intro s'
    cases h : tryOpenTag (str "sheet") s' with
    | none => simp
    | some x => simp
  have hp : ∀ c, (([SheetSeg.plain c]).map (fun seg => match seg with
      | SheetSeg.tag t => admitSheetName t
      | SheetSeg.plain _ => [])).flatten = ([] : List Str) := by
    intro c
    simp
  have h1 : extractFromSheetNames s = gscan
      (fun s' => (tryOpenTag (str "sheet") s').map
        (fun x => (admitSheetName x.1, x.2)))
      (fun _ => []) s := rfl
  have h2 : scanSheetSegs s = gscan
      (fun s' => (tryOpenTag (str "sheet") s').map
        (fun x => ([SheetSeg.tag x.1], x.2)))
      (fun c => [SheetSeg.plain c]) s := rfl
  rw [h1, h2]
  exact (gscan_transport _ _ _ _ _ hs hp s).symm

theorem mem_extractFromTag (tag s d : Str) :
    d ∈ extractFromTag tag s ↔
      (d ∈ (tagSpans tag s).map decodeXml ∧ hasJapanese d = true) := by
  rw [extractFromTag_segs, List.mem_flatten]
  constructor
  · rintro ⟨L, hL, hdL⟩
    rcases List.mem_map.mp hL with ⟨seg, hseg, rfl⟩
    cases seg with
    | plain c => simp at hdL
    | span op i =>
      rcases (mem_admitTag d i).mp hdL with ⟨hd, hj⟩
      refine ⟨List.mem_map.mpr ⟨i, ?_, hd.symm⟩, hj⟩
      exact List.mem_filterMap.mpr ⟨Seg.span op i, hseg, rfl⟩
  · rintro ⟨hd, hj⟩
    rcases List.mem_map.mp hd with ⟨i, hi, hdec⟩
    rcases List.mem_filterMap.mp hi with ⟨seg, hseg, hmatch⟩
    cases seg with
    | plain c => simp at hmatch
    | span op i' =>
      have : i' = i := by injection hmatch
      subst this
      refine ⟨admitTag i', List.mem_map.mpr ⟨Seg.span op i', hseg, rfl⟩, ?_⟩
      exact (mem_admitTag d i').mpr ⟨hdec.symm, hj⟩

theorem mem_extractFromSharedStrings (s d : Str) :
    d ∈ extractFromSharedStrings s ↔
      (d ∈ (siSpans s).map siCandidate ∧ hasJapanese d = true) := by
  rw [extractFromSharedStrings_segs, List.mem_flatten]
  constructor
  · rintro ⟨L, hL, hdL⟩
    rcases List.mem_map.mp hL with ⟨seg, hseg, rfl⟩
    cases seg with
    | plain c => simp at hdL
    | block i =>
      rcases (mem_admitSi d i).mp hdL with ⟨hd, hj⟩
      refine ⟨List.mem_map.mpr ⟨i, ?_, hd.symm⟩, hj⟩
      exact List.mem_filterMap.mpr ⟨SiSeg.block i, hseg, rfl⟩
  · rintro ⟨hd, hj⟩
    rcases List.mem_map.mp hd with ⟨i, hi, hdec⟩
    rcases List.mem_filterMap.mp hi with ⟨seg, hseg, hmatch⟩
    cases seg with
    | plain c => simp at hmatch
    | block i' =>
      have : i' = i := by injection hmatch
      subst this
      refine ⟨admitSi i', List.mem_map.mpr ⟨SiSeg.block i', hseg, rfl⟩, ?_⟩
      exact (mem_admitSi d i').mpr ⟨hdec.symm, hj⟩

theorem mem_extractFromSheetNames (s d : Str) :
    d ∈ extractFromSheetNames s ↔
      (d ∈ (sheetTags s).filterMap (fun t =>
        (findNameAttr t).map (fun x => decodeXml x.2.1)) ∧
        hasJapanese d = true) := by
  rw [extractFromSheetNames_segs, List.mem_flatten]
  constructor
  · rintro ⟨L, hL, hdL⟩
    rcases List.mem_map.mp hL with ⟨seg, hseg, rfl⟩
    cases seg with
    | plain c => simp at hdL
    | tag t =>
      rcases (mem_admitSheetName d t).mp hdL with ⟨⟨x, hx, hd⟩, hj⟩
      refine ⟨List.mem_filterMap.mpr ⟨t, ?_, ?_⟩, hj⟩
      · exact List.mem_filterMap.mpr ⟨SheetSeg.tag t, hseg, rfl⟩
      · rw [hx]
        simp [hd]
  · rintro ⟨hd, hj⟩
    rcases List.mem_filterMap.mp hd with ⟨t, ht, hmap⟩
    rcases List.mem_filterMap.mp ht with ⟨seg, hseg, hmatch⟩
    cases seg with
    | plain c => simp at hmatch
    | tag t' =>
      have : t' = t := by injection hmatch
      subst this
      cases hf : findNameAttr t' with
      | none => rw [hf] at hmap; simp at hmap
      | some x =>
        rw [hf] at hmap
        simp only [Option.map, Option.some.injEq] at hmap
        refine ⟨admitSheetName t',
          List.mem_map.mpr ⟨SheetSeg.tag t', hseg, rfl⟩, ?_⟩
        exact (mem_admitSheetName d t').mpr ⟨⟨x, hf, hmap.symm⟩, hj⟩

theorem mem_addUnique (acc : List Str) (a x : Str) :
    x ∈ addUnique acc a ↔ (x ∈ acc ∨ x = a) := by
  unfold addUnique
  by_cases h : a ∈ acc
  · rw [if_pos h]
    constructor
    · exact Or.inl
    · rintro (hx | rfl)
      · exact hx
      · exact h
  · rw [if_neg h]
    simp

theorem mem_foldl_addUnique : ∀ (l acc : List Str) (x : Str),
    x ∈ l.foldl addUnique acc ↔ (x ∈ acc ∨ x ∈ l) := by
  intro l
  induction l with
  | nil => intro acc x; simp
  | cons a l ih =>
    intro acc x
    rw [List.foldl_cons, ih, mem_addUnique]
    simp [or_assoc]

theorem mem_rule_flatten (P : Str → Bool) (f g : Str → List Str)
    (hfg : ∀ x d, d ∈ f x ↔ (d ∈ g x ∧ hasJapanese d = true))
    (parts : List (Str × Str)) (d : Str) :
    d ∈ (parts.map (fun p => if P p.1 then f p.2 else [])).flatten ↔
      (d ∈ (parts.map (fun p => if P p.1 then g p.2 else [])).flatten ∧
        hasJapanese d = true) := by
  rw [List.mem_flatten, List.mem_flatten]
  constructor
  · rintro ⟨L, hL, hdL⟩
    rcases List.mem_map.mp hL with ⟨p, hp, rfl⟩
    by_cases hP : P p.1 = true
    · rw [if_pos hP] at hdL
      rcases (hfg _ _).mp hdL with ⟨hg, hj⟩
      exact ⟨⟨g p.2, List.mem_map.mpr ⟨p, hp, by rw [if_pos hP]⟩, hg⟩, hj⟩
    · rw [if_neg hP] at hdL
      simp at hdL
  · rintro ⟨⟨L, hL, hdL⟩, hj⟩
    rcases List.mem_map.mp hL with ⟨p, hp, rfl⟩
    by_cases hP : P p.1 = true
    · rw [if_pos hP] at hdL
      exact ⟨f p.2, List.mem_map.mpr ⟨p, hp, by rw [if_pos hP]⟩,
        (hfg _ _).mpr ⟨hdL, hj⟩⟩
    · rw [if_neg hP] at hdL
      simp at hdL

theorem mem_rule1 (parts : List (Str × Str)) (d : Str) :
    d ∈ (match lookupA parts (str "xl/sharedStrings.xml") with
      | some xml => extractFromSharedStrings xml
      | none => []) ↔
      (d ∈ (match lookupA parts (str "xl/sharedStrings.xml") with
        | some xml => (siSpans xml).map siCandidate
        | none => []) ∧ hasJapanese d = true) := by
  cases h : lookupA parts (str "xl/sharedStrings.xml") with
  | none => simp
  | some xml => exact mem_extractFromSharedStrings xml d

theorem mem_rule5 (parts : List (Str × Str)) (d : Str) :
    d ∈ (match lookupA parts (str "xl/workbook.xml") with
      | some xml => extractFromSheetNames xml
      | none => []) ↔
      (d ∈ (match lookupA parts (str "xl/workbook.xml") with
        | some xml => (sheetTags xml).filterMap (fun t =>
            (findNameAttr t).map (fun (x : Str × Str × Str) =>
              decodeXml x.2.1))
        | none => []) ∧ hasJapanese d = true) := by
  cases h : lookupA parts (str "xl/workbook.xml") with
  | none => simp
  | some xml => exact mem_extractFromSheetNames xml d

/-- C8: a candidate string (from any of the five extraction rules) is added
to the unique-string set if and only if it is a candidate and its decoded
text contains at least one Japanese-script character; the empty string is
never added. -/
theorem c8_script_filter (parts : List (Str × Str)) :
    (∀ s : Str, s ∈ extractStrings parts ↔
      (s ∈ allCandidates parts ∧ hasJapanese s = true)) ∧
    [] ∉ extractStrings parts := by
  have hmain : ∀ s : Str, s ∈ extractStrings parts ↔
      (s ∈ allCandidates parts ∧ hasJapanese s = true) := by
    intro s
    have hE : extractStrings parts =
      ((match lookupA parts (str "xl/sharedStrings.xml") with
        | some xml => extractFromSharedStrings xml
        | none => []) ++
       (parts.map (fun p => if isWorksheetName p.1 then
          extractFromTag (str "t") p.2 else [])).flatten ++
       (parts.map (fun p => if isDrawingName p.1 then
          extractFromTag (str "a:t") p.2 else [])).flatten ++
       (parts.map (fun p => if isChartName p.1 then
          extractFromTag (str "a:t") p.2 else [])).flatten ++
       (match lookupA parts (str "xl/workbook.xml") with
        | some xml => extractFromSheetNames xml
        | none => [])).foldl addUnique [] := rfl
    have hC : allCandidates parts =
      (match lookupA parts (str "xl/sharedStrings.xml") with
        | some xml => (siSpans xml).map siCandidate
        | none => []) ++
       (parts.map (fun p => if isWorksheetName p.1 then
          (tagSpans (str "t") p.2).map decodeXml else [])).flatten ++
       (parts.map (fun p => if isDrawingName p.1 then
          (tagSpans (str "a:t") p.2).map decodeXml else [])).flatten ++
       (parts.map (fun p => if isChartName p.1 then
          (tagSpans (str "a:t") p.2).map decodeXml else [])).flatten ++
       (match lookupA parts (str "xl/workbook.xml") with
        | some xml => (sheetTags xml).filterMap (fun t =>
            (findNameAttr t).map (fun x => decodeXml x.2.1))
        | none => []) := rfl
    rw [hE, hC, mem_foldl_addUnique]
    simp only [List.mem_append, List.not_mem_nil, false_or]
    rw [mem_rule1 parts s,
      mem_rule_flatten isWorksheetName (extractFromTag (str "t"))
        (fun x => (tagSpans (str "t") x).map decodeXml)
        (fun x d => mem_extractFromTag (str "t") x d) parts s,
      mem_rule_flatten isDrawingName (extractFromTag (str "a:t"))
        (fun x => (tagSpans (str "a:t") x).map decodeXml)
        (fun x d => mem_extractFromTag (str "a:t") x d) parts s,
      mem_rule_flatten isChartName (extractFromTag (str "a:t"))
        (fun x => (tagSpans (str "a:t") x).map decodeXml)
        (fun x d => mem_extractFromTag (str "a:t") x d) parts s,
      mem_rule5 parts s]
    tauto
  refine ⟨hmain, fun hmem => ?_⟩
  have := ((hmain []).mp hmem).2
  simp [hasJapanese] at this

theorem lookupA_append (a b : List (Str × Str)) (k : Str) :
    lookupA (a ++ b) k =
      match lookupA a k with
      | some v => some v
      | none => lookupA b k := by
  induction a with
  | nil => simp [lookupA]
  | cons kv a ih =>
    obtain ⟨k', v'⟩ := kv
    by_cases hk : k = k'
    · simp [lookupA, hk]
    · simp only [List.cons_append, lookupA, if_neg hk]
      exact ih

theorem lookupA_none_of_not_mem (l : List (Str × Str)) (k : Str)
    (h : k ∉ l.map Prod.fst) : lookupA l k = none := by
  induction l with
  | nil => rfl
  | cons kv l ih =>
    obtain ⟨k', v'⟩ := kv
    simp only [List.map_cons, List.mem_cons] at h
    rw [show lookupA ((k', v') :: l) k =
      if k = k' then some v' else lookupA l k from rfl]
    rw [if_neg (fun he => h (Or.inl he))]
    exact ih (fun hm => h (Or.inr hm))

theorem lookupA_zip_pos : ∀ (c outs : List Str) (j : Nat), c.Nodup →
    c.length ≤ outs.length → j < c.length →
    lookupA (c.zip outs) (c.getD j []) = some (outs.getD j []) := by
  intro c
  induction c with
  | nil => intro outs j _ _ hj; simp at hj
  | cons a c' ih =>
    intro outs j hnd hlen hj
    cases outs with
    | nil => simp at hlen
    | cons o outs' =>
      cases j with
      | zero => simp [lookupA]
      | succ j' =>
        simp only [List.length_cons, Nat.add_le_add_iff_right] at hlen
        simp only [List.length_cons, Nat.add_lt_add_iff_right] at hj
        have hkey : (c'.getD j' []) ∈ c' := by
          rw [List.getD_eq_getElem c' [] hj]
          exact List.getElem_mem hj
        have hne : ¬ (c'.getD j' []) = a := by
          intro he
          rw [he] at hkey
          exact (List.nodup_cons.mp hnd).1 hkey
        simp only [List.zip_cons_cons, List.getD_cons_succ]
        rw [show lookupA ((a, o) :: c'.zip outs') (c'.getD j' []) =
          if (c'.getD j' []) = a then some o
          else lookupA (c'.zip outs') (c'.getD j' []) from rfl]
        rw [if_neg hne]
        exact ih outs' j' (List.nodup_cons.mp hnd).2 hlen hj

theorem setAssoc_fresh (m : List (Str × Str)) (k : Str) (v : Str)
    (h : lookupA m k = none) : setAssoc m k v = m ++ [(k, v)] := by
  induction m with
  | nil => rfl
  | cons kv m ih =>
    obtain ⟨k', v'⟩ := kv
    rw [show lookupA ((k', v') :: m) k =
      if k = k' then some v' else lookupA m k from rfl] at h
    by_cases hk : k = k'
    · rw [if_pos hk] at h; simp at h
    · rw [if_neg hk] at h
      rw [show setAssoc ((k', v') :: m) k v =
        (k', v') :: setAssoc m k v from by simp [setAssoc, hk]]
      rw [ih h]
      rfl

theorem foldl_setAssoc_fresh : ∀ (entries : List (Str × Str))
    (m : List (Str × Str)),
    (∀ kv ∈ entries, lookupA m kv.1 = none) →
    (entries.map Prod.fst).Nodup →
    entries.foldl (fun acc kv => setAssoc acc kv.1 kv.2) m = m ++ entries := by
  intro entries
  induction entries with
  | nil => intro m _ _; simp
  | cons kv rest ih =>
    intro m hfresh hnd
    obtain ⟨k, v⟩ := kv
    rw [List.foldl_cons]
    have hk0 : lookupA m k = none := hfresh (k, v) (by simp)
    rw [show setAssoc m (k, v).1 (k, v).2 = setAssoc m k v from rfl,
      setAssoc_fresh m k v hk0]
    rw [ih (m ++ [(k, v)]) ?_ (List.nodup_cons.mp hnd).2]
    · simp
    · intro kv' hkv'
      rw [lookupA_append, hfresh kv' (by simp [hkv'])]
      have hne : ¬ kv'.1 = k := by
        intro he
        have : kv'.1 ∈ rest.map Prod.fst := List.mem_map.mpr ⟨kv', hkv', rfl⟩
        rw [he] at this
        exact (List.nodup_cons.mp hnd).1 this
      simp [lookupA, hne]

theorem insertBatch_fresh (m : List (Str × Str)) (c outs : List Str)
    (hfresh : ∀ s ∈ c, lookupA m s = none)
    (hnd : c.Nodup) (hlen : c.length ≤ outs.length) :
    insertBatch m c outs = m ++ c.zip outs := by
  unfold insertBatch
  rw [foldl_setAssoc_fresh (c.zip outs) m ?_ ?_]
  · intro kv hkv
    exact hfresh kv.1 (List.of_mem_zip hkv).1
  · rw [List.map_fst_zip c outs hlen]
    exact hnd

theorem chunkAt_append_drop (strings : List Str) (i : Nat) :
    chunkAt strings i ++ strings.drop (20 * (i + 1)) =
      strings.drop (20 * i) := by
  unfold chunkAt
  have h20 : 20 * (i + 1) = 20 * i + 20 := by ring
  rw [h20, ← List.drop_drop]
  exact List.take_append_drop 20 (strings.drop (20 * i))

theorem drop_nodup (strings : List Str) (h : strings.Nodup) (n : Nat) :
    (strings.drop n).Nodup :=
  (List.drop_sublist n strings).nodup h

theorem chunkAt_nodup (strings : List Str) (h : strings.Nodup) (i : Nat) :
    (chunkAt strings i).Nodup :=
  ((List.take_sublist 20 _).nodup (drop_nodup strings h (20 * i)))

theorem mem_chunkAt_drop (strings : List Str) (i : Nat) (s : Str)
    (h : s ∈ chunkAt strings i) : s ∈ strings.drop (20 * i) := by
  rw [← chunkAt_append_drop strings i]
  exact List.mem_append.mpr (Or.inl h)

theorem mem_drop_le (strings : List Str) (a b : Nat) (hab : a ≤ b) (s : Str)
    (h : s ∈ strings.drop b) : s ∈ strings.drop a := by
  have : strings.drop b = (strings.drop a).drop (b - a) := by
    rw [List.drop_drop]
    congr 1
    omega
  rw [this] at h
  exact (List.drop_sublist _ _).mem h

theorem divCeil_facts (n : Nat) :
    20 * divCeil n 20 + (n + 19) % 20 = n + 19 ∧ (n + 19) % 20 < 20 := by
  unfold divCeil
  exact ⟨Nat.div_add_mod (n + 19) 20, Nat.mod_lt _ (by norm_num)⟩

theorem chunkAt_length (strings : List Str) (i : Nat) :
    (chunkAt strings i).length = min 20 (strings.length - 20 * i) := by
  simp [chunkAt]

theorem chunks_flatten (strings : List Str) :
    ((List.range (divCeil strings.length 20)).map
      (chunkAt strings)).flatten = strings := by
  have key : ∀ m : Nat, ((List.range m).map (chunkAt strings)).flatten =
      strings.take (20 * m) := by
    intro m
    induction m with
    | zero => simp
    | succ m ih =>
      rw [List.range_succ, List.map_append, List.flatten_append, ih]
      simp only [List.map_cons, List.map_nil, List.flatten_cons,
        List.flatten_nil, List.append_nil]
      unfold chunkAt
      rw [show 20 * (m + 1) = 20 * m + 20 from by ring, List.take_add]
  rw [key]
  have hf := divCeil_facts strings.length
  exact List.take_of_length_le (by omega)

/-- C3: the orchestrator partitions the unique strings into
`ceil(n / 20)` contiguous batches of size 20 with the last possibly
shorter; the batch count is zero exactly when there are no strings, and in
that case the orchestration calls no collaborator and emits the single
terminal progress event. -/
theorem c3_batch_partitioning (strings : List Str)
    (svc : Nat → List Str → Except SvcErr (List Str))
    (m0 : List (Str × Str)) :
    (divCeil strings.length 20 = 0 ↔ strings = []) ∧
    ((List.range (divCeil strings.length 20)).map
      (chunkAt strings)).flatten = strings ∧
    (∀ i, i + 1 < divCeil strings.length 20 →
      (chunkAt strings i).length = 20) ∧
    (divCeil strings.length 20 ≠ 0 →
      0 < (chunkAt strings (divCeil strings.length 20 - 1)).length ∧
      (chunkAt strings (divCeil strings.length 20 - 1)).length ≤ 20) ∧
    (strings = [] →
      processTranslations svc m0 strings =
        ⟨m0, [⟨PStatus.rebuilding, 0, 0,
          some (str "No Japanese text found.")⟩], [], none⟩) := by
  have hf := divCeil_facts strings.length
  refine ⟨?_, chunks_flatten strings, ?_, ?_, ?_⟩
  · rw [← List.length_eq_zero]
    omega
  · intro i hi
    rw [chunkAt_length]
    omega
  · intro hne
    rw [chunkAt_length]
    exact ⟨lt_min (by norm_num) (by omega), min_le_left _ _⟩
  · intro hnil
    subst hnil
    rfl

/-- Witness inputs for C3: twenty-one one-character strings. -/
def strings21 : List Str := (List.range 21).map (fun i => [Char.ofNat (97 + i)])

/-- Witness for C3: with 21 unique strings there are two batches, the first
of size 20; with no strings the orchestration is the single-event no-op. -/
theorem c3_batch_partitioning_witness :
    (chunkAt strings21 0).length = 20 ∧
    processTranslations (fun _ c => Except.ok c) [] [] =
      ⟨[], [⟨PStatus.rebuilding, 0, 0,
        some (str "No Japanese text found.")⟩], [], none⟩ :=
  ⟨(c3_batch_partitioning strings21 (fun _ c => Except.ok c) []).2.2.1 0
      (by decide),
    (c3_batch_partitioning [] (fun _ c => Except.ok c) []).2.2.2.2 rfl⟩

/-- C4: on a successful batch the orchestrator inserts exactly one entry per
batch string, mapping the batch's j-th input to the collaborator's j-th
output (positional), so the map grows by exactly the batch size, and every
existing entry is preserved unchanged. -/
theorem c4_positional_assignment
    (svc : Nat → List Str → Except SvcErr (List Str))
    (strings : List Str) (total : Nat) (is : List Nat) (i : Nat)
    (m : List (Str × Str)) (evs : List Progress) (att : List (List Str))
    (outs : List Str)
    (hok : svc i (chunkAt strings i) = Except.ok outs)
    (hlen : outs.length = (chunkAt strings i).length)
    (hfresh : ∀ s ∈ chunkAt strings i, lookupA m s = none)
    (hnodup : (chunkAt strings i).Nodup) :
    orchGo svc strings total (i :: is) m evs att =
      orchGo svc strings total is (m ++ (chunkAt strings i).zip outs)
        (evs ++ [⟨PStatus.translating, i + 1, total,
          some (transMsg i total)⟩]) (att ++ [chunkAt strings i]) ∧
    (m ++ (chunkAt strings i).zip outs).length =
      m.length + (chunkAt strings i).length ∧
    (∀ j, j < (chunkAt strings i).length →
      lookupA (m ++ (chunkAt strings i).zip outs)
        ((chunkAt strings i).getD j []) = some (outs.getD j [])) ∧
    (∀ k v, lookupA m k = some v →
      lookupA (m ++ (chunkAt strings i).zip outs) k = some v) := by
  refine ⟨?_, ?_, ?_, ?_⟩
  · rw [show orchGo svc strings total (i :: is) m evs att =
      (match svc i (chunkAt strings i) with
       | Except.ok outs' => orchGo svc strings total is
           (insertBatch m (chunkAt strings i) outs')
           (evs ++ [⟨PStatus.translating, i + 1, total,
             some (transMsg i total)⟩]) (att ++ [chunkAt strings i])
       | Except.error e => ⟨m, evs ++ [⟨PStatus.translating, i + 1, total,
           some (transMsg i total)⟩], att ++ [chunkAt strings i],
           some e⟩) from rfl, hok]
    dsimp only
    rw [insertBatch_fresh m _ outs hfresh hnodup (le_of_eq hlen.symm)]
  · rw [List.length_append, List.length_zip, hlen]
    simp
  · intro j hj
    rw [lookupA_append, hfresh _ (by
      rw [List.getD_eq_getElem _ [] hj]
      exact List.getElem_mem hj)]
    exact lookupA_zip_pos _ outs j hnodup (le_of_eq hlen.symm) hj
  · intro k v hkv
    rw [lookupA_append, hkv]

/-- Witness for C4 on a concrete two-string batch. -/
theorem c4_positional_assignment_witness :
    ([] ++ (chunkAt [str "あ", str "い"] 0).zip
      [str "A", str "B"]).length =
      ([] : List (Str × Str)).length +
        (chunkAt [str "あ", str "い"] 0).length ∧
    lookupA ([] ++ (chunkAt [str "あ", str "い"] 0).zip
      [str "A", str "B"]) ((chunkAt [str "あ", str "い"] 0).getD 1 []) =
      some ([str "A", str "B"].getD 1 []) :=
  have h := c4_positional_assignment (fun _ c => Except.ok [str "A", str "B"])
    [str "あ", str "い"] 1 [] 0 [] [] [] [str "A", str "B"]
    rfl (by decide) (by intro s _; rfl) (by decide)
  ⟨h.2.1, h.2.2.1 1 (by decide)⟩

/-- C6: whenever the collaborator's response handling returns without
raising, the output list has exactly the input's length; an unparseable or
non-array reply echoes the inputs unchanged; and a parsed reply with a
missing id at an index yields the original input string at that index. -/
theorem c6_collaborator_fallback (texts : List Str) :
    (∀ (resp : GemResp) (out : List Str),
      translateBatchOutcome texts resp = Except.ok out →
      out.length = texts.length) ∧
    translateBatchOutcome texts GemResp.unparseable = Except.ok texts ∧
    (∀ (items : List GemItem) (j : Nat), j < texts.length →
      lookupO (buildIdMap items) (Nat.repr j).data = none →
      (mapBack texts (buildIdMap items)).getD j [] = texts.getD j []) := by
  refine ⟨?_, rfl, ?_⟩
  · intro resp out h
    cases resp with
    | emptyText => simp [translateBatchOutcome] at h
    | unparseable =>
      simp only [translateBatchOutcome, Except.ok.injEq] at h
      rw [← h]
    | items l =>
      simp only [translateBatchOutcome, Except.ok.injEq] at h
      rw [← h]
      simp [mapBack]
  · intro items j hj hmiss
    have hmb : (mapBack texts (buildIdMap items)).getD j [] =
        (match lookupO (buildIdMap items) (Nat.repr j).data with
         | some (some t) => if t.isEmpty then texts.getD j [] else t
         | some none => texts.getD j []
         | none => texts.getD j []) := by
      unfold mapBack
      rw [List.getD_eq_getElem?_getD, List.getElem?_map,
        List.getElem?_range hj]
      rfl
    rw [hmb, hmiss]

/-- Witness for C6 at a concrete reply missing the id of index 1. -/
theorem c6_collaborator_fallback_witness :
    translateBatchOutcome [str "あ", str "い"]
      (GemResp.items [⟨some (str "0"), some (str "A")⟩]) =
      Except.ok [str "A", str "い"] ∧
    (mapBack [str "あ", str "い"]
      (buildIdMap [⟨some (str "0"), some (str "A")⟩])).getD 1 [] =
      [str "あ", str "い"].getD 1 [] :=
  ⟨by rfl,
    (c6_collaborator_fallback [str "あ", str "い"]).2.2
      [⟨some (str "0"), some (str "A")⟩] 1 (by decide) (by decide)⟩

theorem orchGo_quota_run
    (svc : Nat → List Str → Except SvcErr (List Str))
    (strings : List Str) (total k : Nat) (outs : Nat → List Str)
    (hnodup : strings.Nodup) (hk : k < total)
    (hsucc : ∀ i, i < k → svc i (chunkAt strings i) = Except.ok (outs i))
    (hlen : ∀ i, i < k → (outs i).length = (chunkAt strings i).length)
    (hfail : svc k (chunkAt strings k) = Except.error SvcErr.quota) :
    ∀ (d i : Nat), i + d = k →
    ∀ (m : List (Str × Str)) (evs : List Progress) (att : List (List Str)),
    (∀ s ∈ strings.drop (20 * i), lookupA m s = none) →
    (orchGo svc strings total (List.range' i (total - i)) m evs att).tmap =
      m ++ ((List.range' i d).map
        (fun j => (chunkAt strings j).zip (outs j))).flatten ∧
    (orchGo svc strings total
        (List.range' i (total - i)) m evs att).attempted =
      att ++ (List.range' i (d + 1)).map (chunkAt strings) ∧
    (orchGo svc strings total (List.range' i (total - i)) m evs att).err =
      some SvcErr.quota ∧
    (∀ s ∈ strings.drop (20 * k),
      lookupA (orchGo svc strings total
        (List.range' i (total - i)) m evs att).tmap s = none) := by
  intro d
  induction d with
  | zero =>
    intro i hik m evs att hinv
    have hik' : i = k := by omega
    subst hik'
    obtain ⟨e, he⟩ : ∃ e, total - i = e + 1 := ⟨total - i - 1, by omega⟩
    rw [he, show List.range' i (e + 1) = i :: List.range' (i + 1) e from rfl]
    rw [show orchGo svc strings total
        (i :: List.range' (i + 1) e) m evs att =
      (match svc i (chunkAt strings i) with
       | Except.ok outs' => orchGo svc strings total (List.range' (i + 1) e)
           (insertBatch m (chunkAt strings i) outs')
           (evs ++ [⟨PStatus.translating, i + 1, total,
             some (transMsg i total)⟩]) (att ++ [chunkAt strings i])
       | Except.error e' => ⟨m, evs ++ [⟨PStatus.translating, i + 1, total,
           some (transMsg i total)⟩], att ++ [chunkAt strings i],
           some e'⟩) from rfl, hfail]
    refine ⟨by simp, by simp [List.range'], rfl, fun s hs => hinv s hs⟩
  | succ d ih =>
    intro i hik m evs att hinv
    have hilt : i < k := by omega
    obtain ⟨e, he⟩ : ∃ e, total - i = e + 1 := ⟨total - i - 1, by omega⟩
    have he2 : e = total - (i + 1) := by omega
    rw [he, show List.range' i (e + 1) = i :: List.range' (i + 1) e from rfl]
    rw [show orchGo svc strings total
        (i :: List.range' (i + 1) e) m evs att =
      (match svc i (chunkAt strings i) with
       | Except.ok outs' => orchGo svc strings total (List.range' (i + 1) e)
           (insertBatch m (chunkAt strings i) outs')
           (evs ++ [⟨PStatus.translating, i + 1, total,
             some (transMsg i total)⟩]) (att ++ [chunkAt strings i])
       | Except.error e' => ⟨m, evs ++ [⟨PStatus.translating, i + 1, total,
           some (transMsg i total)⟩], att ++ [chunkAt strings i],
           some e'⟩) from rfl, hsucc i hilt]
    dsimp only
    have hfreshc : ∀ s ∈ chunkAt strings i, lookupA m s = none :=
      fun s hs => hinv s (mem_chunkAt_drop strings i s hs)
    rw [insertBatch_fresh m _ (outs i) hfreshc
      (chunkAt_nodup strings hnodup i) (le_of_eq (hlen i hilt).symm)]
    have hinv' : ∀ s ∈ strings.drop (20 * (i + 1)),
        lookupA (m ++ (chunkAt strings i).zip (outs i)) s = none := by
      intro s hs
      rw [lookupA_append,
        hinv s (mem_drop_le strings (20 * i) (20 * (i + 1))
          (by omega) s hs)]
      have hnd : (chunkAt strings i ++
          strings.drop (20 * (i + 1))).Nodup := by
        rw [chunkAt_append_drop]
        exact drop_nodup strings hnodup (20 * i)
      have hdisj := (List.nodup_append.mp hnd).2.2
      apply lookupA_none_of_not_mem
      rw [List.map_fst_zip _ _ (le_of_eq (hlen i hilt).symm)]
      intro hc
      exact hdisj hc hs
    have hrec := ih (i + 1) (by omega)
      (m ++ (chunkAt strings i).zip (outs i))
      (evs ++ [⟨PStatus.translating, i + 1, total, some (transMsg i total)⟩])
      (att ++ [chunkAt strings i]) hinv'
    rw [he2]
    refine ⟨?_, ?_, hrec.2.2.1, hrec.2.2.2⟩
    · rw [hrec.1]
      rw [show List.range' i (d + 1) = i :: List.range' (i + 1) d from rfl]
      simp
    · rw [hrec.2.1]
      rw [show List.range' i (d + 1 + 1) =
        i :: List.range' (i + 1) (d + 1) from rfl]
      simp

/-- C2: when the collaborator succeeds for the first k batches and reports
quota exhaustion on batch k+1, the orchestration aborts with the quota
error, attempts no batch after k+1, and the map at abort holds exactly the
positional translations of the first k batches; every string of a later
batch has no entry, so each rewrite helper of the recovered artifact leaves
the spans carrying those strings unchanged. -/
theorem c2_quota_abort
    (svc : Nat → List Str → Except SvcErr (List Str))
    (strings : List Str) (k : Nat) (outs : Nat → List Str)
    (hnodup : strings.Nodup) (hk : k < divCeil strings.length 20)
    (hsucc : ∀ i, i < k → svc i (chunkAt strings i) = Except.ok (outs i))
    (hlen : ∀ i, i < k → (outs i).length = (chunkAt strings i).length)
    (hfail : svc k (chunkAt strings k) = Except.error SvcErr.quota) :
    (processTranslations svc [] strings).err = some SvcErr.quota ∧
    (processTranslations svc [] strings).attempted =
      (List.range (k + 1)).map (chunkAt strings) ∧
    (processTranslations svc [] strings).tmap =
      ((List.range k).map
        (fun j => (chunkAt strings j).zip (outs j))).flatten ∧
    (∀ j, k ≤ j → ∀ s ∈ chunkAt strings j,
      lookupA (processTranslations svc [] strings).tmap s = none ∧
      (∀ inner : Str, decodeXml inner = s →
        rwInner (processTranslations svc [] strings).tmap inner = inner) ∧
      (∀ inner : Str, siCandidate inner = s →
        rwSiInner (processTranslations svc [] strings).tmap inner = inner) ∧
      (∀ (tagTxt : Str) (x : Str × Str × Str),
        findNameAttr tagTxt = some x → decodeXml x.2.1 = s →
        rwSheetTag (processTranslations svc [] strings).tmap tagTxt =
          tagTxt)) := by
  have hP : processTranslations svc [] strings =
      orchGo svc strings (divCeil strings.length 20)
        (List.range' 0 (divCeil strings.length 20 - 0)) [] [] [] := by
    unfold processTranslations
    rw [if_neg (by omega), List.range_eq_range', Nat.sub_zero]
  have hrun := orchGo_quota_run svc strings (divCeil strings.length 20) k
    outs hnodup hk hsucc hlen hfail k 0 (by omega) [] [] []
    (by intro s _; rfl)
  have hfreshS : ∀ j, k ≤ j → ∀ s ∈ chunkAt strings j,
      lookupA (processTranslations svc [] strings).tmap s = none := by
    intro j hj s hs
    rw [hP]
    exact hrun.2.2.2 s (mem_drop_le strings (20 * k) (20 * j)
      (by omega) s (mem_chunkAt_drop strings j s hs))
  refine ⟨?_, ?_, ?_, ?_⟩
  · rw [hP]; exact hrun.2.2.1
  · rw [hP, hrun.2.1, List.range_eq_range']
    simp
  · rw [hP, hrun.1, List.range_eq_range']
    simp
  · intro j hj s hs
    have hnone := hfreshS j hj s hs
    refine ⟨hnone, ?_, ?_, ?_⟩
    · intro inner hdec
      unfold rwInner
      rw [hdec, hnone]
    · intro inner hcand
      unfold rwSiInner
      rw [hcand, hnone]
    · intro tagTxt x hf hdec
      unfold rwSheetTag
      rw [hf]
      dsimp only
      rw [hdec, hnone]

/-- Witness for C2: twenty-one strings, a collaborator succeeding on batch 1
and reporting quota exhaustion on batch 2. -/
theorem c2_quota_abort_witness :
    (processTranslations
      (fun i c => if i = 0 then Except.ok c
        else Except.error SvcErr.quota) [] strings21).err =
      some SvcErr.quota ∧
    (processTranslations
      (fun i c => if i = 0 then Except.ok c
        else Except.error SvcErr.quota) [] strings21).attempted =
      (List.range 2).map (chunkAt strings21) ∧
    lookupA (processTranslations
      (fun i c => if i = 0 then Except.ok c
        else Except.error SvcErr.quota) [] strings21).tmap
      [Char.ofNat 117] = none :=
  have h := c2_quota_abort
    (fun i c => if i = 0 then Except.ok c else Except.error SvcErr.quota)
    strings21 1 (fun i => chunkAt strings21 i) (by decide) (by decide)
    (fun i hi => by
      have h0 : i = 0 := by omega
      subst h0
      rfl)
    (fun i hi => rfl)
    rfl
  ⟨h.1, h.2.1, (h.2.2.2 1 (le_refl 1) [Char.ofNat 117] (by decide)).1⟩

/-- C7 evaluated on the failing input: a real phonetic-guide block carries
`sb`/`eb` attributes, but the strip regex removes only literal `<rPh>`
blocks, so the phonetic text contributes to the candidate; the bare
`<rPh>` form is stripped as the code comment intends. -/
theorem c7_phonetic_eval :
    siCandidate (str "<t>字</t><rPh sb=\"0\" eb=\"1\"><t>ジ</t></rPh>") =
      str "字ジ" ∧
    stripRPh (str "<t>字</t><rPh sb=\"0\" eb=\"1\"><t>ジ</t></rPh>") =
      str "<t>字</t><rPh sb=\"0\" eb=\"1\"><t>ジ</t></rPh>" ∧
    stripRPh (str "<t>字</t><rPh><t>ジ</t></rPh>") = str "<t>字</t>" ∧
    siCandidate (str "<t>字</t><rPh><t>ジ</t></rPh>") = str "字" := by
  refine ⟨by decide, by decide, by decide, by decide⟩

end XlT